import Mathlib

/-!
Verification of the GF(2^256) binary-field multiplication routine
(`binaryFieldMul` in `binary_field_multiplication.go`).

The development has three layers:

1. A mathematical layer for polynomials over GF(2) encoded as natural
   numbers (bit `i` is the coefficient of `X^i`): carry-less
   multiplication `clmul`, the fixed modulus
   `fPoly = X^256 + X^10 + X^5 + X^2 + 1`, and canonical reduction
   `polyModF` (remainder of polynomial division by `fPoly`).
   All recursive functions are defined with an explicit structural fuel
   argument so that they evaluate inside the kernel on concrete inputs.

2. A shallow embedding of the Go source: byte buffers are `List Nat`
   (one entry per byte), 64-bit machine words are `Nat` with explicit
   `% 2^64` where Go's `uint64` arithmetic wraps, and the function's
   loops are folds over literal index ranges.  A call with an input
   shorter than 32 bytes panics in Go (index out of range) and is
   modelled as `none`.

3. Bridging theorems relating the word-level algorithm to the
   mathematical layer, and the claim theorems.
-/

set_option maxHeartbeats 4000000
set_option maxRecDepth 8000

namespace BFM

/-! ### Fuel-based base-2 logarithm -/

/-- lgF is a fuel-based floor base-2 logarithm; the fuel only bounds the
recursion depth. -/
def lgF : Nat → Nat → Nat
  | 0, _ => 0
  | f + 1, x => if x < 2 then 0 else lgF f (x / 2) + 1

/-- lg x is the floor of the base-2 logarithm of x (0 for x = 0). -/
def lg (x : Nat) : Nat := lgF x x

theorem lgF_eq_lg (x : Nat) : ∀ f, x ≤ f → lgF f x = lg x := by
  induction x using Nat.strong_induction_on with
  | _ x ih =>
    intro f hf
    match f with
    | 0 =>
      have hx0 : x = 0 := Nat.le_zero.mp hf
      subst hx0; rfl
    | f + 1 =>
      show (if x < 2 then 0 else lgF f (x / 2) + 1) = lg x
      by_cases h2 : x < 2
      · simp only [h2, if_true]
        match x, h2 with
        | 0, _ => rfl
        | 1, _ => rfl
      · simp only [h2, if_false]
        have hrec : x / 2 < x := Nat.div_lt_self (by omega) (by omega)
        have h1 : lgF f (x / 2) = lg (x / 2) := ih _ hrec f (by omega)
        have h2' : lg x = lgF x x := rfl
        match x, h2 with
        | x' + 1, h2 =>
          have h3 : lgF (x' + 1) (x' + 1) = if (x' + 1) < 2 then 0 else lgF x' ((x' + 1) / 2) + 1 := rfl
          have h4 : lgF x' ((x' + 1) / 2) = lg ((x' + 1) / 2) := ih _ hrec x' (by omega)
          simp only [h2', h3, h2, if_false, h1, h4]

theorem lg_eq (x : Nat) : lg x = if x < 2 then 0 else lg (x / 2) + 1 := by
  by_cases h2 : x < 2
  · simp only [h2, if_true]
    match x, h2 with
    | 0, _ => rfl
    | 1, _ => rfl
  · simp only [h2, if_false]
    show lgF x x = _
    match x, h2 with
    | x' + 1, h2 =>
      show (if (x' + 1) < 2 then 0 else lgF x' ((x' + 1) / 2) + 1) = _
      simp only [h2, if_false]
      have := lgF_eq_lg ((x' + 1) / 2) x' (by omega)
      simp only [this]

theorem lg_spec (x : Nat) (h : x ≠ 0) : 2 ^ lg x ≤ x ∧ x < 2 ^ (lg x + 1) := by
  induction x using Nat.strong_induction_on with
  | _ x ih =>
    rcases Nat.lt_or_ge x 2 with h2 | h2
    · match x, h, h2 with
      | 1, _, _ => simp [lg_eq]
    · rw [lg_eq]
      simp only [Nat.not_lt.mpr h2, if_false]
      have hrec : x / 2 < x := Nat.div_lt_self (by omega) (by omega)
      have hne : x / 2 ≠ 0 := by omega
      obtain ⟨ha, hb⟩ := ih _ hrec hne
      constructor
      · calc 2 ^ (lg (x / 2) + 1) = 2 * 2 ^ lg (x / 2) := by ring
        _ ≤ 2 * (x / 2) := by omega
        _ ≤ x := by omega
      · calc x < 2 * (x / 2) + 2 := by omega
        _ ≤ 2 * 2 ^ (lg (x / 2) + 1) := by omega
        _ = 2 ^ (lg (x / 2) + 1 + 1) := by ring

/-! ### Generic bit-manipulation lemmas -/

theorem shiftLeft_xor_distrib (x y n : Nat) : (x ^^^ y) <<< n = x <<< n ^^^ y <<< n := by
  apply Nat.eq_of_testBit_eq
  intro i
  simp only [Nat.testBit_shiftLeft, Nat.testBit_xor, Bool.and_xor_distrib_left]

theorem shiftRight_xor_distrib (x y n : Nat) : (x ^^^ y) >>> n = x >>> n ^^^ y >>> n := by
  apply Nat.eq_of_testBit_eq
  intro i
  simp only [Nat.testBit_shiftRight, Nat.testBit_xor]

theorem mod_two_pow_xor_distrib (x y n : Nat) :
    (x ^^^ y) % 2 ^ n = x % 2 ^ n ^^^ y % 2 ^ n := by
  apply Nat.eq_of_testBit_eq
  intro i
  simp only [Nat.testBit_mod_two_pow, Nat.testBit_xor, Bool.and_xor_distrib_left]

theorem xor_div_two (x y : Nat) : (x ^^^ y) / 2 = x / 2 ^^^ y / 2 := by
  have h := shiftRight_xor_distrib x y 1
  simpa [Nat.shiftRight_eq_div_pow] using h

theorem xor_mod_two (x y : Nat) : (x ^^^ y) % 2 = x % 2 ^^^ y % 2 := by
  have h := mod_two_pow_xor_distrib x y 1
  simpa using h

/-- xor_disjoint_add: when x occupies only the low n bits, XOR with a value
shifted past those bits is ordinary addition. -/
theorem xor_disjoint_add (n : Nat) : ∀ x y : Nat, x < 2 ^ n → x ^^^ y <<< n = x + y <<< n := by
  induction n with
  | zero =>
    intro x y hx
    have hx0 : x = 0 := by omega
    subst hx0
    simp
  | succ n ih =>
    intro x y hx
    have hsh : y <<< (n + 1) = 2 * (y <<< n) := by
      simp [Nat.shiftLeft_eq, Nat.pow_succ]; ring
    have hmod : (x ^^^ y <<< (n + 1)) % 2 = x % 2 := by
      rw [xor_mod_two]
      have : (y <<< (n + 1)) % 2 = 0 := by omega
      rw [this]
      rcases Nat.mod_two_eq_zero_or_one x with h | h <;> simp [h]
    have hdiv : (x ^^^ y <<< (n + 1)) / 2 = x / 2 ^^^ y <<< n := by
      rw [xor_div_two]
      congr 1
      omega
    have hxd : x / 2 < 2 ^ n := by
      have : x < 2 ^ n * 2 := by
        have := hx; rw [Nat.pow_succ] at this; exact this
      omega
    have hih := ih (x / 2) y hxd
    have hz := Nat.div_add_mod (x ^^^ y <<< (n + 1)) 2
    rw [hdiv, hmod, hih] at hz
    omega

theorem lor_div_two (x y : Nat) : (x ||| y) / 2 = x / 2 ||| y / 2 := by
  have h : (x ||| y) >>> 1 = x >>> 1 ||| y >>> 1 := by
    apply Nat.eq_of_testBit_eq
    intro i
    simp only [Nat.testBit_shiftRight, Nat.testBit_lor]
  simpa [Nat.shiftRight_eq_div_pow] using h

theorem lor_mod_two (x y : Nat) : (x ||| y) % 2 = x % 2 ||| y % 2 := by
  have h : (x ||| y) % 2 ^ 1 = x % 2 ^ 1 ||| y % 2 ^ 1 := by
    apply Nat.eq_of_testBit_eq
    intro i
    simp only [Nat.testBit_mod_two_pow, Nat.testBit_lor, Bool.and_or_distrib_left]
  simpa using h

/-- lor_disjoint_add: when x occupies only the low n bits, OR with a value
shifted past those bits is ordinary addition. -/
theorem lor_disjoint_add (n : Nat) : ∀ x y : Nat, x < 2 ^ n → x ||| y <<< n = x + y <<< n := by
  induction n with
  | zero =>
    intro x y hx
    have hx0 : x = 0 := by omega
    subst hx0
    simp [Nat.zero_or]
  | succ n ih =>
    intro x y hx
    have hsh : y <<< (n + 1) = 2 * (y <<< n) := by
      simp [Nat.shiftLeft_eq, Nat.pow_succ]; ring
    have hmod : (x ||| y <<< (n + 1)) % 2 = x % 2 := by
      rw [lor_mod_two]
      have h0 : (y <<< (n + 1)) % 2 = 0 := by omega
      rw [h0]
      rcases Nat.mod_two_eq_zero_or_one x with h | h <;> simp [h]
    have hdiv : (x ||| y <<< (n + 1)) / 2 = x / 2 ||| y <<< n := by
      rw [lor_div_two]
      congr 1
      omega
    have hxd : x / 2 < 2 ^ n := by
      have : x < 2 ^ n * 2 := by
        have := hx; rw [Nat.pow_succ] at this; exact this
      omega
    have hih := ih (x / 2) y hxd
    have hz := Nat.div_add_mod (x ||| y <<< (n + 1)) 2
    rw [hdiv, hmod, hih] at hz
    omega

/-- lor_eq_xor_disjoint: OR and XOR agree on operands with disjoint bit ranges. -/
theorem lor_eq_xor_disjoint (n x y : Nat) (hx : x < 2 ^ n) :
    x ||| y <<< n = x ^^^ y <<< n := by
  rw [lor_disjoint_add n x y hx, xor_disjoint_add n x y hx]

theorem lt_two_pow_of_testBit_false {z d : Nat} (h1 : z < 2 ^ (d + 1))
    (h2 : z.testBit d = false) : z < 2 ^ d := by
  have h1' : z < 2 ^ d * 2 := by rw [← Nat.pow_succ]; exact h1
  have hdiv : z / 2 ^ d < 2 := Nat.div_lt_of_lt_mul (by omega)
  have hmod : z / 2 ^ d % 2 ≠ 1 := by
    rw [Nat.testBit_to_div_mod] at h2
    simpa using h2
  have hmod' : z / 2 ^ d % 2 = 0 := by
    rcases Nat.mod_two_eq_zero_or_one (z / 2 ^ d) with h | h
    · exact h
    · exact absurd h hmod
  have h0 : z / 2 ^ d = 0 := by
    generalize hw : z / 2 ^ d = w at hdiv hmod'
    omega
  have hz := Nat.div_add_mod z (2 ^ d)
  rw [h0, Nat.mul_zero, Nat.zero_add] at hz
  have hm : z % 2 ^ d < 2 ^ d := Nat.mod_lt _ (Nat.two_pow_pos d)
  omega

theorem testBit_true_of_le_of_lt {x d : Nat} (h1 : 2 ^ d ≤ x) (h2 : x < 2 ^ (d + 1)) :
    x.testBit d = true := by
  rw [Nat.testBit_to_div_mod]
  have hdiv : x / 2 ^ d = 1 := by
    have ha : 1 ≤ x / 2 ^ d := (Nat.one_le_div_iff (Nat.two_pow_pos d)).mpr h1
    have h2' : x < 2 ^ d * 2 := by rw [← Nat.pow_succ]; exact h2
    have hb : x / 2 ^ d < 2 := Nat.div_lt_of_lt_mul (by omega)
    omega
  simp [hdiv]

theorem xor_left_comm (a b c : Nat) : a ^^^ (b ^^^ c) = b ^^^ (a ^^^ c) := by
  rw [← Nat.xor_assoc, Nat.xor_comm a b, Nat.xor_assoc]

/-! ### Carry-less (GF(2) polynomial) multiplication on Nat -/

/-- clmulF is carry-less multiplication with an explicit structural fuel
argument (the fuel only bounds the recursion depth, which is the bit length
of the first argument). -/
def clmulF : Nat → Nat → Nat → Nat
  | 0, _, _ => 0
  | f + 1, x, y => if x = 0 then 0 else (if x % 2 = 1 then y else 0) ^^^ (clmulF f (x / 2) y) <<< 1

/-- clmul x y is the carry-less (XOR, no carries) product of x and y viewed
as polynomials over GF(2), bit i being the coefficient of X^i. -/
def clmul (x y : Nat) : Nat := clmulF x x y

theorem clmulF_eq_clmul (x : Nat) : ∀ f y, x ≤ f → clmulF f x y = clmul x y := by
  induction x using Nat.strong_induction_on with
  | _ x ih =>
    intro f y hf
    match f with
    | 0 =>
      have hx0 : x = 0 := Nat.le_zero.mp hf
      subst hx0; rfl
    | f + 1 =>
      show (if x = 0 then 0 else (if x % 2 = 1 then y else 0) ^^^ (clmulF f (x / 2) y) <<< 1) = clmul x y
      by_cases h0 : x = 0
      · subst h0; rfl
      · simp only [h0, if_false]
        have hrec : x / 2 < x := Nat.div_lt_self (by omega) (by omega)
        have h1 : clmulF f (x / 2) y = clmul (x / 2) y := ih _ hrec f y (by omega)
        match x, h0 with
        | x' + 1, h0 =>
          have h3 : clmul (x' + 1) y =
              if (x' + 1) = 0 then 0 else
                (if (x' + 1) % 2 = 1 then y else 0) ^^^ (clmulF x' ((x' + 1) / 2) y) <<< 1 := rfl
          have h4 : clmulF x' ((x' + 1) / 2) y = clmul ((x' + 1) / 2) y := ih _ hrec x' y (by omega)
          simp only [h3, h0, if_false, h1, h4]

theorem clmul_eq (x y : Nat) :
    clmul x y = if x = 0 then 0 else (if x % 2 = 1 then y else 0) ^^^ (clmul (x / 2) y) <<< 1 := by
  by_cases h0 : x = 0
  · subst h0; rfl
  · match x, h0 with
    | x' + 1, h0 =>
      show (if (x' + 1) = 0 then 0 else
          (if (x' + 1) % 2 = 1 then y else 0) ^^^ (clmulF x' ((x' + 1) / 2) y) <<< 1) = _
      simp only [h0, if_false]
      rw [clmulF_eq_clmul ((x' + 1) / 2) x' y (by omega)]

theorem zero_clmul (y : Nat) : clmul 0 y = 0 := rfl

theorem clmul_zero (x : Nat) : clmul x 0 = 0 := by
  induction x using Nat.strong_induction_on with
  | _ x ih =>
    rw [clmul_eq]
    by_cases h0 : x = 0
    · simp [h0]
    · have := ih (x / 2) (Nat.div_lt_self (by omega) (by omega))
      simp [h0, this]

theorem one_clmul (y : Nat) : clmul 1 y = y := by
  rw [clmul_eq]
  simp [zero_clmul]

/-- clmul_two_mul: doubling the left argument shifts the product. -/
theorem two_mul_clmul (x y : Nat) : clmul (2 * x) y = (clmul x y) <<< 1 := by
  by_cases h0 : x = 0
  · simp [h0, zero_clmul]
  · rw [clmul_eq]
    have h1 : 2 * x ≠ 0 := by omega
    have h2 : (2 * x) % 2 = 0 := by omega
    have h3 : (2 * x) / 2 = x := by omega
    simp [h1, h2, h3]

theorem two_mul_add_one_clmul (x y : Nat) : clmul (2 * x + 1) y = y ^^^ (clmul x y) <<< 1 := by
  rw [clmul_eq]
  have h1 : 2 * x + 1 ≠ 0 := by omega
  have h2 : (2 * x + 1) % 2 = 1 := by omega
  have h3 : (2 * x + 1) / 2 = x := by omega
  simp [h1, h2, h3]

theorem clmul_xor_right (x : Nat) : ∀ y z : Nat, clmul x (y ^^^ z) = clmul x y ^^^ clmul x z := by
  induction x using Nat.strong_induction_on with
  | _ x ih =>
    intro y z
    by_cases h0 : x = 0
    · simp [h0, zero_clmul]
    · rw [clmul_eq, clmul_eq x y, clmul_eq x z]
      simp only [h0, if_false]
      rw [ih (x / 2) (Nat.div_lt_self (by omega) (by omega)) y z, shiftLeft_xor_distrib]
      rcases Nat.mod_two_eq_zero_or_one x with h | h
      · simp only [h]
        norm_num
      · simp only [h, if_true]
        generalize clmul (x / 2) y <<< 1 = A
        generalize clmul (x / 2) z <<< 1 = B
        simp [Nat.xor_assoc, Nat.xor_comm, xor_left_comm]

theorem clmul_xor_left_aux (w : Nat) :
    ∀ x y z : Nat, x ^^^ y = w → clmul (x ^^^ y) z = clmul x z ^^^ clmul y z := by
  induction w using Nat.strong_induction_on with
  | _ w ih =>
    intro x y z hw
    subst hw
    by_cases h0 : x ^^^ y = 0
    · have hxy : x = y := Nat.xor_eq_zero.mp h0
      subst hxy
      simp [h0, zero_clmul]
    · rw [clmul_eq, clmul_eq x z, clmul_eq y z]
      simp only [h0, if_false]
      have hdiv : (x ^^^ y) / 2 = x / 2 ^^^ y / 2 := xor_div_two x y
      have hmod : (x ^^^ y) % 2 = x % 2 ^^^ y % 2 := xor_mod_two x y
      have hrec : (x ^^^ y) / 2 < x ^^^ y := Nat.div_lt_self (by omega) (by omega)
      have hih : clmul (x / 2 ^^^ y / 2) z = clmul (x / 2) z ^^^ clmul (y / 2) z := by
        apply ih (x / 2 ^^^ y / 2) _ (x / 2) (y / 2) z rfl
        rw [← hdiv]; exact hrec
      rw [hdiv, hih, shiftLeft_xor_distrib]
      by_cases hx0 : x = 0
      · subst hx0
        have hy0' : ¬y = 0 := by simpa using h0
        simp [zero_clmul, Nat.zero_xor, hy0']
      by_cases hy0 : y = 0
      · subst hy0
        simp [zero_clmul, Nat.xor_zero, hx0]
      simp only [hx0, hy0, if_false]
      rcases Nat.mod_two_eq_zero_or_one x with h1 | h1 <;>
        rcases Nat.mod_two_eq_zero_or_one y with h2 | h2 <;>
          simp only [h1, h2, hmod] <;> norm_num <;>
            simp [Nat.xor_assoc, Nat.xor_comm, xor_left_comm, Nat.xor_cancel_left]

theorem clmul_xor_left (x y z : Nat) : clmul (x ^^^ y) z = clmul x z ^^^ clmul y z :=
  clmul_xor_left_aux (x ^^^ y) x y z rfl

theorem shiftLeft_clmul (x y : Nat) : ∀ n, clmul (x <<< n) y = clmul x y <<< n := by
  intro n
  induction n with
  | zero => simp [Nat.shiftLeft_zero]
  | succ n ih =>
    have h1 : x <<< (n + 1) = 2 * (x <<< n) := by
      simp [Nat.shiftLeft_eq, Nat.pow_succ]; ring
    have h2 : ∀ z : Nat, z <<< (n + 1) = (z <<< n) <<< 1 := by
      intro z
      rw [← Nat.shiftLeft_add]
    rw [h1, two_mul_clmul, ih, h2]

theorem clmul_shiftLeft (y n : Nat) : ∀ x, clmul x (y <<< n) = clmul x y <<< n := by
  intro x
  induction x using Nat.strong_induction_on with
  | _ x ih =>
    by_cases h0 : x = 0
    · simp [h0, zero_clmul]
    · rw [clmul_eq x (y <<< n), clmul_eq x y]
      simp only [h0, if_false]
      rw [ih (x / 2) (Nat.div_lt_self (by omega) (by omega)), shiftLeft_xor_distrib]
      congr 1
      · rcases Nat.mod_two_eq_zero_or_one x with h | h <;> simp [h, Nat.zero_shiftLeft]
      · rw [← Nat.shiftLeft_add, ← Nat.shiftLeft_add, Nat.add_comm n 1]

theorem clmul_two_pow (y : Nat) : ∀ n, clmul (2 ^ n) y = y <<< n := by
  intro n
  induction n with
  | zero => simp [one_clmul, Nat.shiftLeft_zero]
  | succ n ih =>
    have h1 : (2 : Nat) ^ (n + 1) = 2 * 2 ^ n := by ring
    have h2 : y <<< (n + 1) = (y <<< n) <<< 1 := by rw [← Nat.shiftLeft_add]
    rw [h1, two_mul_clmul, ih, h2]

theorem odd_decomp {y : Nat} (h : y % 2 = 1) : y = 1 ^^^ (y / 2) <<< 1 := by
  rw [xor_disjoint_add 1 1 (y / 2) (by omega)]
  rw [Nat.shiftLeft_eq]
  omega

theorem even_decomp {y : Nat} (h : y % 2 = 0) : y = (y / 2) <<< 1 := by
  rw [Nat.shiftLeft_eq]
  omega

theorem clmul_eq_right (y : Nat) : ∀ x,
    clmul x y = if y = 0 then 0 else (if y % 2 = 1 then x else 0) ^^^ (clmul x (y / 2)) <<< 1 := by
  intro x
  induction x using Nat.strong_induction_on with
  | _ x ih =>
    by_cases hy0 : y = 0
    · simp [hy0, clmul_zero]
    by_cases hx0 : x = 0
    · subst hx0
      simp [zero_clmul, hy0]
    simp only [hy0, if_false]
    rw [clmul_eq x y, clmul_eq x (y / 2)]
    simp only [hx0, if_false]
    rw [ih (x / 2) (Nat.div_lt_self (by omega) (by omega))]
    simp only [hy0, if_false]
    rw [shiftLeft_xor_distrib, shiftLeft_xor_distrib]
    have hshsh : ∀ z : Nat, z <<< 1 <<< 1 = z <<< 1 <<< 1 := fun _ => rfl
    have key : (if x % 2 = 1 then y else 0) ^^^ ((if y % 2 = 1 then x / 2 else 0) <<< 1) =
        (if y % 2 = 1 then x else 0) ^^^ ((if x % 2 = 1 then y / 2 else 0) <<< 1) := by
      rcases Nat.mod_two_eq_zero_or_one x with h1 | h1 <;>
        rcases Nat.mod_two_eq_zero_or_one y with h2 | h2
      · simp [h1, h2]
      · have hd := even_decomp h1
        simp only [h1, h2]
        simp [Nat.zero_shiftLeft, Nat.zero_xor, Nat.xor_zero]
        exact hd.symm
      · have hd := even_decomp h2
        simp only [h1, h2]
        simp [Nat.zero_shiftLeft, Nat.zero_xor, Nat.xor_zero]
        exact hd
      · have hx := odd_decomp h1
        have hy := odd_decomp h2
        simp only [h1, h2, if_pos]
        generalize hA : x / 2 = A at hx ⊢
        generalize hB : y / 2 = B at hy ⊢
        rw [hx, hy]
        simp [Nat.xor_assoc, Nat.xor_comm, xor_left_comm]
    calc (if x % 2 = 1 then y else 0) ^^^
          ((if y % 2 = 1 then x / 2 else 0) <<< 1 ^^^ clmul (x / 2) (y / 2) <<< 1 <<< 1)
        = ((if x % 2 = 1 then y else 0) ^^^ (if y % 2 = 1 then x / 2 else 0) <<< 1) ^^^
          clmul (x / 2) (y / 2) <<< 1 <<< 1 := by
          rw [Nat.xor_assoc]
      _ = ((if y % 2 = 1 then x else 0) ^^^ (if x % 2 = 1 then y / 2 else 0) <<< 1) ^^^
          clmul (x / 2) (y / 2) <<< 1 <<< 1 := by rw [key]
      _ = (if y % 2 = 1 then x else 0) ^^^
          ((if x % 2 = 1 then y / 2 else 0) <<< 1 ^^^ clmul (x / 2) (y / 2) <<< 1 <<< 1) := by
          rw [Nat.xor_assoc]

theorem clmul_comm (x y : Nat) : clmul x y = clmul y x := by
  induction x using Nat.strong_induction_on generalizing y with
  | _ x ih =>
    by_cases hx0 : x = 0
    · simp [hx0, zero_clmul, clmul_zero]
    · rw [clmul_eq x y, clmul_eq_right x y]
      simp only [hx0, if_false]
      rw [ih (x / 2) (Nat.div_lt_self (by omega) (by omega))]

theorem clmul_assoc (y z : Nat) : ∀ x, clmul (clmul x y) z = clmul x (clmul y z) := by
  intro x
  induction x using Nat.strong_induction_on with
  | _ x ih =>
    by_cases hx0 : x = 0
    · simp [hx0, zero_clmul]
    · rw [clmul_eq x y, clmul_eq x (clmul y z)]
      simp only [hx0, if_false]
      rw [clmul_xor_left, shiftLeft_clmul]
      rw [ih (x / 2) (Nat.div_lt_self (by omega) (by omega))]
      congr 1
      rcases Nat.mod_two_eq_zero_or_one x with h | h <;> simp [h, zero_clmul]

theorem clmul_lt {y b : Nat} (hy : y < 2 ^ b) : ∀ a x, x < 2 ^ a → clmul x y < 2 ^ (a + b) := by
  have main : ∀ x, ∀ a, x < 2 ^ a → clmul x y < 2 ^ (a + b) := by
    intro x
    induction x using Nat.strong_induction_on with
    | _ x ih =>
      intro a hx
      by_cases hx0 : x = 0
      · simp [hx0, zero_clmul]
      · match a with
        | 0 => omega
        | a + 1 =>
          rw [clmul_eq]
          simp only [hx0, if_false]
          have hp : 2 ^ b ≤ 2 ^ (a + 1 + b) := Nat.pow_le_pow_right (by omega) (by omega)
          have h1 : (if x % 2 = 1 then y else 0) < 2 ^ (a + 1 + b) := by
            rcases Nat.mod_two_eq_zero_or_one x with h | h <;> simp [h] <;> omega
          have hx2 : x / 2 < 2 ^ a := by
            have : x < 2 ^ a * 2 := by rw [← Nat.pow_succ]; exact hx
            omega
          have h2 : clmul (x / 2) y < 2 ^ (a + b) :=
            ih (x / 2) (Nat.div_lt_self (by omega) (by omega)) a hx2
          have h3 : (clmul (x / 2) y) <<< 1 < 2 ^ (a + 1 + b) := by
            rw [Nat.shiftLeft_eq]
            have : (2 : Nat) ^ (a + 1 + b) = 2 ^ (a + b) * 2 := by ring
            omega
          exact Nat.xor_lt_two_pow h1 h3
  intro a x hx
  exact main x a hx

/-! ### The modulus f(X) = X^256 + X^10 + X^5 + X^2 + 1 and canonical reduction -/

/-- rPoly is the low part X^10 + X^5 + X^2 + 1 of the modulus. -/
def rPoly : Nat := 2 ^ 10 + 2 ^ 5 + 2 ^ 2 + 1

/-- fPoly is the field-defining irreducible polynomial X^256 + X^10 + X^5 + X^2 + 1. -/
def fPoly : Nat := 2 ^ 256 + rPoly

theorem rPoly_lt : rPoly < 2 ^ 11 := by decide

theorem fPoly_eq_xor : fPoly = rPoly ^^^ (2 ^ 256) := by
  have h : rPoly ^^^ 1 <<< 256 = rPoly + 1 <<< 256 :=
    xor_disjoint_add 256 rPoly 1 (by norm_num [rPoly])
  have h1 : (1 : Nat) <<< 256 = 2 ^ 256 := by rw [Nat.shiftLeft_eq]; ring
  rw [h1] at h
  rw [fPoly]
  omega

theorem clmul_fPoly_split (q : Nat) : clmul q fPoly = clmul q rPoly ^^^ q <<< 256 := by
  have h2 : clmul q (2 ^ 256) = q <<< 256 := by rw [clmul_comm, clmul_two_pow]
  rw [fPoly_eq_xor, clmul_xor_right, h2]

/-- polyModAux is the division-remainder loop: while x has degree at least 256,
subtract (XOR) the appropriately shifted modulus to clear the leading bit.  The
structural fuel argument only bounds the recursion depth. -/
def polyModAux : Nat → Nat → Nat
  | 0, x => x
  | f + 1, x => if x < 2 ^ 256 then x else polyModAux f (x ^^^ fPoly <<< (lg x - 256))

/-- polyModF x is the canonical remainder of x modulo fPoly under GF(2)
polynomial division: the unique value below 2^256 congruent to x. -/
def polyModF (x : Nat) : Nat := polyModAux x x

theorem polyStep_lt {x : Nat} (h : ¬x < 2 ^ 256) : x ^^^ fPoly <<< (lg x - 256) < x := by
  have hx0 : x ≠ 0 := by
    intro h0
    rw [h0] at h
    exact h (Nat.two_pow_pos 256)
  obtain ⟨hlo, hhi⟩ := lg_spec x hx0
  have hd : 256 ≤ lg x := by
    by_contra hc
    push_neg at hc
    have : 2 ^ (lg x + 1) ≤ 2 ^ 256 := Nat.pow_le_pow_right (by omega) (by omega)
    omega
  have hs : 256 + (lg x - 256) = lg x := by omega
  have hfhi : fPoly <<< (lg x - 256) < 2 ^ (lg x + 1) := by
    rw [Nat.shiftLeft_eq]
    have h1 : fPoly < 2 ^ 257 := by norm_num [fPoly, rPoly]
    calc fPoly * 2 ^ (lg x - 256) < 2 ^ 257 * 2 ^ (lg x - 256) := by
          apply Nat.mul_lt_mul_right (Nat.two_pow_pos _) |>.mpr h1
      _ = 2 ^ (257 + (lg x - 256)) := by rw [← Nat.pow_add]
      _ = 2 ^ (lg x + 1) := by congr 1; omega
  have hflo : 2 ^ lg x ≤ fPoly <<< (lg x - 256) := by
    rw [Nat.shiftLeft_eq]
    have h1 : 2 ^ 256 ≤ fPoly := by norm_num [fPoly]
    calc 2 ^ lg x = 2 ^ 256 * 2 ^ (lg x - 256) := by rw [← Nat.pow_add]; congr 1; omega
      _ ≤ fPoly * 2 ^ (lg x - 256) := Nat.mul_le_mul_right _ h1
  have ht1 : x.testBit (lg x) = true := testBit_true_of_le_of_lt hlo hhi
  have ht2 : (fPoly <<< (lg x - 256)).testBit (lg x) = true :=
    testBit_true_of_le_of_lt hflo hfhi
  have hz1 : x ^^^ fPoly <<< (lg x - 256) < 2 ^ (lg x + 1) :=
    Nat.xor_lt_two_pow hhi hfhi
  have hz2 : (x ^^^ fPoly <<< (lg x - 256)).testBit (lg x) = false := by
    rw [Nat.testBit_xor, ht1, ht2]
    rfl
  have := lt_two_pow_of_testBit_false hz1 hz2
  omega

theorem polyModAux_eq_polyModF (x : Nat) : ∀ f, x ≤ f → polyModAux f x = polyModF x := by
  induction x using Nat.strong_induction_on with
  | _ x ih =>
    intro f hf
    match f with
    | 0 =>
      have hx0 : x = 0 := Nat.le_zero.mp hf
      subst hx0; rfl
    | f + 1 =>
      show (if x < 2 ^ 256 then x else polyModAux f (x ^^^ fPoly <<< (lg x - 256))) = polyModF x
      by_cases hlt : x < 2 ^ 256
      · simp only [hlt, if_true]
        match x, hf with
        | 0, _ => rfl
        | x' + 1, hf =>
          show _ = (if x' + 1 < 2 ^ 256 then x' + 1 else _)
          simp only [hlt, if_true]
      · simp only [hlt, if_false]
        have hstep := polyStep_lt hlt
        have h1 : polyModAux f (x ^^^ fPoly <<< (lg x - 256)) =
            polyModF (x ^^^ fPoly <<< (lg x - 256)) := ih _ hstep f (by omega)
        rw [h1]
        match x, hlt with
        | x' + 1, hlt =>
          have h2 : polyModF (x' + 1) = if x' + 1 < 2 ^ 256 then x' + 1 else
              polyModAux x' ((x' + 1) ^^^ fPoly <<< (lg (x' + 1) - 256)) := rfl
          rw [h2]
          simp only [hlt, if_false]
          exact (ih _ hstep x' (by omega)).symm

theorem polyModF_eq (x : Nat) :
    polyModF x = if x < 2 ^ 256 then x
      else polyModF (x ^^^ fPoly <<< (lg x - 256)) := by
  by_cases hlt : x < 2 ^ 256
  · simp only [hlt, if_true]
    match x with
    | 0 => rfl
    | x' + 1 =>
      show (if x' + 1 < 2 ^ 256 then x' + 1 else _) = x' + 1
      simp only [hlt, if_true]
  · simp only [hlt, if_false]
    match x, hlt with
    | x' + 1, hlt =>
      show (if x' + 1 < 2 ^ 256 then x' + 1 else
          polyModAux x' ((x' + 1) ^^^ fPoly <<< (lg (x' + 1) - 256))) = _
      simp only [hlt, if_false]
      exact polyModAux_eq_polyModF _ x' (by have := polyStep_lt hlt; omega)

theorem polyModF_of_lt {x : Nat} (h : x < 2 ^ 256) : polyModF x = x := by
  rw [polyModF_eq]
  simp only [h, if_true]

theorem polyModF_lt (x : Nat) : polyModF x < 2 ^ 256 := by
  induction x using Nat.strong_induction_on with
  | _ x ih =>
    by_cases hlt : x < 2 ^ 256
    · rw [polyModF_eq, if_pos hlt]
      exact hlt
    · rw [polyModF_eq, if_neg hlt]
      exact ih _ (polyStep_lt hlt)

/-- CongF x y means x and y are congruent modulo fPoly as GF(2) polynomials:
their XOR is a carry-less multiple of fPoly. -/
def CongF (x y : Nat) : Prop := ∃ q, x ^^^ y = clmul q fPoly

theorem congF_refl (x : Nat) : CongF x x := ⟨0, by simp [zero_clmul]⟩

theorem congF_symm {x y : Nat} (h : CongF x y) : CongF y x := by
  obtain ⟨q, hq⟩ := h
  exact ⟨q, by rw [Nat.xor_comm, hq]⟩

theorem congF_trans {x y z : Nat} (h1 : CongF x y) (h2 : CongF y z) : CongF x z := by
  obtain ⟨q1, hq1⟩ := h1
  obtain ⟨q2, hq2⟩ := h2
  refine ⟨q1 ^^^ q2, ?_⟩
  have hx : x ^^^ z = (x ^^^ y) ^^^ (y ^^^ z) := by
    rw [Nat.xor_assoc, ← Nat.xor_assoc y y z, Nat.xor_self, Nat.zero_xor]
  rw [hx, hq1, hq2, clmul_xor_left]

theorem congF_xor {x y x' y' : Nat} (h1 : CongF x y) (h2 : CongF x' y') :
    CongF (x ^^^ x') (y ^^^ y') := by
  obtain ⟨q1, hq1⟩ := h1
  obtain ⟨q2, hq2⟩ := h2
  refine ⟨q1 ^^^ q2, ?_⟩
  have hx : x ^^^ x' ^^^ (y ^^^ y') = (x ^^^ y) ^^^ (x' ^^^ y') := by
    simp [Nat.xor_assoc, Nat.xor_comm, xor_left_comm]
  rw [hx, hq1, hq2, clmul_xor_left]

theorem polyModF_congF (x : Nat) : CongF (polyModF x) x := by
  induction x using Nat.strong_induction_on with
  | _ x ih =>
    rw [polyModF_eq]
    by_cases hlt : x < 2 ^ 256
    · simp only [hlt, if_true]
      exact congF_refl x
    · simp only [hlt, if_false]
      have h1 := ih _ (polyStep_lt hlt)
      apply congF_trans h1
      refine ⟨2 ^ (lg x - 256), ?_⟩
      have h2 : x ^^^ fPoly <<< (lg x - 256) ^^^ x = fPoly <<< (lg x - 256) := by
        rw [Nat.xor_comm x, Nat.xor_assoc, Nat.xor_self, Nat.xor_zero]
      rw [h2, clmul_two_pow]

theorem clmul_fPoly_ge {q : Nat} (hq : q ≠ 0) : 2 ^ 256 ≤ clmul q fPoly := by
  obtain ⟨hlo, hhi⟩ := lg_spec q hq
  have hsplit := clmul_fPoly_split q
  have hr : clmul q rPoly < 2 ^ (lg q + 256) := by
    have h1 : clmul q rPoly < 2 ^ (lg q + 1 + 11) := clmul_lt rPoly_lt (lg q + 1) q hhi
    have h2 : (2 : Nat) ^ (lg q + 1 + 11) ≤ 2 ^ (lg q + 256) :=
      Nat.pow_le_pow_right (by omega) (by omega)
    omega
  have ht1 : (q <<< 256).testBit (lg q + 256) = true := by
    rw [Nat.testBit_shiftLeft]
    have : lg q + 256 - 256 = lg q := by omega
    rw [this]
    simp [testBit_true_of_le_of_lt hlo hhi]
  have ht2 : (clmul q rPoly).testBit (lg q + 256) = false := Nat.testBit_lt_two_pow hr
  have ht : (clmul q fPoly).testBit (lg q + 256) = true := by
    rw [hsplit, Nat.testBit_xor, ht1, ht2]
    rfl
  have := Nat.testBit_implies_ge ht
  calc (2 : Nat) ^ 256 ≤ 2 ^ (lg q + 256) := Nat.pow_le_pow_right (by omega) (by omega)
    _ ≤ clmul q fPoly := this

theorem congF_unique {x y : Nat} (h : CongF x y) (hx : x < 2 ^ 256) (hy : y < 2 ^ 256) :
    x = y := by
  obtain ⟨q, hq⟩ := h
  by_cases hq0 : q = 0
  · subst hq0
    rw [zero_clmul] at hq
    exact Nat.xor_eq_zero.mp hq
  · have h1 := clmul_fPoly_ge hq0
    have h2 : x ^^^ y < 2 ^ 256 := Nat.xor_lt_two_pow hx hy
    omega

theorem polyModF_congr {x y : Nat} (h : CongF x y) : polyModF x = polyModF y := by
  apply congF_unique _ (polyModF_lt x) (polyModF_lt y)
  exact congF_trans (polyModF_congF x) (congF_trans h (congF_symm (polyModF_congF y)))

theorem polyModF_xor (x y : Nat) : polyModF (x ^^^ y) = polyModF x ^^^ polyModF y := by
  apply congF_unique _ (polyModF_lt _) (Nat.xor_lt_two_pow (polyModF_lt x) (polyModF_lt y))
  apply congF_trans (polyModF_congF _)
  exact congF_symm (congF_xor (polyModF_congF x) (polyModF_congF y))

/-- fieldMul is multiplication in GF(2^256): carry-less product followed by
canonical reduction modulo fPoly. -/
def fieldMul (x y : Nat) : Nat := polyModF (clmul x y)

/-! ### Shallow embedding of binaryFieldMul (binary_field_multiplication.go)

Byte buffers are `List Nat` (Go guarantees each entry is `< 256` via the
`byte` type; theorems carry that as a hypothesis).  Go `uint64` words are
`Nat` with an explicit `% 2 ^ 64` wherever a Go operation can wrap
(left shifts and the negation in the mask); XOR, AND, OR and right shifts
of 64-bit values cannot overflow, so they carry no reduction. -/

/-- combMask models Go's branch-free mask `mask := -(a[j] >> k & 0x01)`:
two's-complement negation on uint64 is subtraction from 2^64 modulo 2^64. -/
def combMask (w k : Nat) : Nat := (2 ^ 64 - (w >>> k &&& 1)) % 2 ^ 64

/-- packStep is the body of the packing loop:
`a[i>>3] |= uint64(A[i]) << (i&0x07<<3)`
(`i>>3` is `i / 8`; `i&0x07<<3` parses in Go as `(i & 7) << 3`, the bit
offset `(i % 8) * 8`). -/
def packStep (X : List Nat) (a : List Nat) (i : Nat) : List Nat :=
  a.set (i / 8) (a.getD (i / 8) 0 ||| (X.getD i 0) <<< (i % 8 * 8))

/-- pack models the packing loop `for i := 0..31 { ... }` condensing a
32-byte buffer into 4 little-endian 64-bit words. -/
def pack (X : List Nat) : List Nat :=
  (List.range 32).foldl (packStep X) (List.replicate 4 0)

/-- combInner models the inner fold `for i := 0..4 { c[j+i] ^= b[i] & mask }`. -/
def combInner (b : List Nat) (mask j : Nat) (c : List Nat) : List Nat :=
  (List.range 5).foldl
    (fun c i => c.set (j + i) ((c.getD (j + i) 0) ^^^ (b.getD i 0 &&& mask))) c

/-- combJ models the loop over source words
`for j := 0..3 { mask := -(a[j] >> k & 1); for i ... }`. -/
def combJ (a b : List Nat) (k : Nat) (c : List Nat) : List Nat :=
  (List.range 4).foldl (fun c j => combInner b (combMask (a.getD j 0) k) j c) c

/-- shiftB models the multi-word left shift of the 5-word buffer:
`for i := 4..1 { b[i] = b[i]<<1 | b[i-1]>>63 }; b[0] <<= 1`
(Go's `b[i]<<1` wraps modulo 2^64). -/
def shiftB (b : List Nat) : List Nat :=
  ([4, 3, 2, 1].foldl
      (fun b i => b.set i ((b.getD i 0 <<< 1) % 2 ^ 64 ||| b.getD (i - 1) 0 >>> 63)) b
    |>.set 0 (([4, 3, 2, 1].foldl
      (fun b i => b.set i ((b.getD i 0 <<< 1) % 2 ^ 64 ||| b.getD (i - 1) 0 >>> 63)) b).getD 0 0 <<< 1 % 2 ^ 64))

/-- combIter is one iteration of the comb loop body for a given k. -/
def combIter (a : List Nat) (cb : List Nat × List Nat) (k : Nat) : List Nat × List Nat :=
  (combJ a cb.2 k cb.1, shiftB cb.2)

/-- combLoop models `for k := 0..63 { ... }` starting from the zeroed 8-word
accumulator and the 5-word copy of B. -/
def combLoop (a b : List Nat) : List Nat × List Nat :=
  (List.range 64).foldl (combIter a) (List.replicate 8 0, b)

/-- redStep models one iteration of the reduction loop body: the seven
XOR-with-shift folds of `c[i]` into `c[i-4]` and `c[i-3]` (left shifts
10, 5, 2 and the unshifted term; right shifts 54, 59, 62).  Go re-reads
`c[i]` on every line; the written indices `i-4`, `i-3` are distinct from
`i`, so caching it is faithful. -/
def redStep (c : List Nat) (i : Nat) : List Nat :=
  let ci := c.getD i 0
  let c1 := c.set (i - 4) (c.getD (i - 4) 0 ^^^ (ci <<< 10) % 2 ^ 64)
  let c2 := c1.set (i - 3) (c1.getD (i - 3) 0 ^^^ ci >>> 54)
  let c3 := c2.set (i - 4) (c2.getD (i - 4) 0 ^^^ (ci <<< 5) % 2 ^ 64)
  let c4 := c3.set (i - 3) (c3.getD (i - 3) 0 ^^^ ci >>> 59)
  let c5 := c4.set (i - 4) (c4.getD (i - 4) 0 ^^^ (ci <<< 2) % 2 ^ 64)
  let c6 := c5.set (i - 3) (c5.getD (i - 3) 0 ^^^ ci >>> 62)
  c6.set (i - 4) (c6.getD (i - 4) 0 ^^^ ci)

/-- reduce models `for i := 7; i >= 4; i-- { ... }`. -/
def reduce (c : List Nat) : List Nat := [7, 6, 5, 4].foldl redStep c

/-- unpack models `for i := 0..31 { C[i] = byte(c[i>>3] >> (i&0x07<<3)) }`;
the `byte(...)` conversion truncates the word to its low 8 bits. -/
def unpack (c : List Nat) : List Nat :=
  (List.range 32).map (fun i => (c.getD (i / 8) 0 >>> (i % 8 * 8)) % 256)

/-- binaryFieldMul models the Go function `binaryFieldMul(A, B []byte) []byte`.
Go performs no length validation: the packing loop indexes `A[i]`, `B[i]`
for `i < 32`, so an input shorter than 32 bytes panics (modelled as `none`)
and longer inputs are silently truncated to their first 32 bytes. -/
def binaryFieldMul (A B : List Nat) : Option (List Nat) :=
  if A.length < 32 ∨ B.length < 32 then none
  else some (unpack (reduce (combLoop (pack A) (pack B ++ [0])).1))

/-- selfMulIter models the demonstration driver's squaring chain
`for j := 0..n-1 { temp = binaryFieldMul(temp, temp) }` from `main`. -/
def selfMulIter : Nat → List Nat → List Nat
  | 0, v => v
  | n + 1, v => selfMulIter n ((binaryFieldMul v v).getD [])

/-! ### Values of word lists and byte lists -/

/-- wval is the 512/320/256-bit value of a little-endian list of 64-bit
words (assembled with XOR, which coincides with addition because the words
occupy disjoint bit ranges). -/
def wval : List Nat → Nat
  | [] => 0
  | w :: ws => w ^^^ (wval ws) <<< 64

/-- bval is the value of a little-endian list of bytes: byte i contributes
its value times 256^i. -/
def bval : List Nat → Nat
  | [] => 0
  | x :: xs => x + 256 * bval xs

/-- bvalX assembles the same little-endian value with XOR instead of
addition; the two agree when every entry is a byte (see bvalX_eq_bval). -/
def bvalX : List Nat → Nat
  | [] => 0
  | x :: xs => x ^^^ (bvalX xs) <<< 8

/-- encodeLE v is the 32-byte little-endian representation of v: byte i is
the i-th base-256 digit. -/
def encodeLE (v : Nat) : List Nat :=
  (List.range 32).map (fun i => v / 2 ^ (8 * i) % 256)

/-! ### Basic list access lemmas -/

theorem getD_set_self (l : List Nat) (n v : Nat) (h : n < l.length) :
    (l.set n v).getD n 0 = v := by
  rw [List.getD_eq_getElem?_getD, List.getElem?_set]
  simp [h]

theorem getD_set_ne (l : List Nat) {m n : Nat} (v : Nat) (h : m ≠ n) :
    (l.set m v).getD n 0 = l.getD n 0 := by
  rw [List.getD_eq_getElem?_getD, List.getD_eq_getElem?_getD, List.getElem?_set_ne h]

theorem mem_set {l : List Nat} {v w : Nat} {n : Nat} (h : w ∈ l.set n v) :
    w ∈ l ∨ w = v := by
  rcases List.mem_or_eq_of_mem_set h with h1 | h1
  · exact Or.inl h1
  · exact Or.inr h1

/-! ### wval and bval toolbox -/

theorem wval_cons (w : Nat) (ws : List Nat) : wval (w :: ws) = w ^^^ (wval ws) <<< 64 := rfl

theorem wval_set_xor (v : Nat) :
    ∀ (c : List Nat) (n : Nat), n < c.length →
      wval (c.set n (c.getD n 0 ^^^ v)) = wval c ^^^ v <<< (64 * n) := by
  intro c
  induction c with
  | nil => intro n h; simp at h
  | cons w ws ih =>
    intro n h
    match n with
    | 0 =>
      simp only [List.getD_cons_zero, List.set]
      rw [wval_cons, wval_cons, Nat.mul_zero, Nat.shiftLeft_zero]
      simp [Nat.xor_assoc, Nat.xor_comm, xor_left_comm]
    | m + 1 =>
      simp only [List.getD_cons_succ, List.set]
      rw [wval_cons, wval_cons]
      have hm : m < ws.length := by simpa using h
      rw [ih m hm, shiftLeft_xor_distrib]
      have hsh : v <<< (64 * m) <<< 64 = v <<< (64 * (m + 1)) := by
        rw [show 64 * (m + 1) = 64 * m + 64 by ring, Nat.shiftLeft_add]
      rw [hsh]
      simp [Nat.xor_assoc, Nat.xor_comm, xor_left_comm]

theorem wval_lt : ∀ (c : List Nat), (∀ w ∈ c, w < 2 ^ 64) →
    wval c < 2 ^ (64 * c.length) := by
  intro c
  induction c with
  | nil => intro _; simp [wval]
  | cons w ws ih =>
    intro h
    rw [wval_cons]
    have h1 : w < 2 ^ 64 := h w (List.mem_cons_self w ws)
    have h2 : wval ws < 2 ^ (64 * ws.length) := ih (fun x hx => h x (List.mem_cons_of_mem w hx))
    apply Nat.xor_lt_two_pow
    · calc w < 2 ^ 64 := h1
        _ ≤ 2 ^ (64 * (w :: ws).length) :=
          Nat.pow_le_pow_right (by omega) (by rw [List.length_cons]; omega)
    · rw [Nat.shiftLeft_eq]
      calc wval ws * 2 ^ 64 < 2 ^ (64 * ws.length) * 2 ^ 64 :=
            (Nat.mul_lt_mul_right (Nat.two_pow_pos 64)).mpr h2
        _ = 2 ^ (64 * ws.length + 64) := by rw [← Nat.pow_add]
        _ ≤ 2 ^ (64 * (w :: ws).length) :=
          Nat.pow_le_pow_right (by omega) (by rw [List.length_cons]; omega)

theorem wval_cons_add (w : Nat) (ws : List Nat) (h : w < 2 ^ 64) :
    wval (w :: ws) = w + 2 ^ 64 * wval ws := by
  rw [wval_cons, xor_disjoint_add 64 w (wval ws) h, Nat.shiftLeft_eq]
  ring

theorem bval_cons (x : Nat) (xs : List Nat) : bval (x :: xs) = x + 256 * bval xs := rfl

theorem bvalX_cons (x : Nat) (xs : List Nat) : bvalX (x :: xs) = x ^^^ (bvalX xs) <<< 8 := rfl

theorem bvalX_eq_bval : ∀ (l : List Nat), (∀ x ∈ l, x < 256) → bvalX l = bval l := by
  intro l
  induction l with
  | nil => intro _; rfl
  | cons x xs ih =>
    intro h
    have h1 : x < 256 := h x (List.mem_cons_self x xs)
    have h2 := ih (fun y hy => h y (List.mem_cons_of_mem x hy))
    rw [bvalX_cons, bval_cons, h2, xor_disjoint_add 8 x (bval xs) h1, Nat.shiftLeft_eq]
    ring

theorem bval_lt : ∀ (l : List Nat), (∀ x ∈ l, x < 256) → bval l < 2 ^ (8 * l.length) := by
  intro l
  induction l with
  | nil => intro _; simp [bval]
  | cons x xs ih =>
    intro h
    have h1 : x < 256 := h x (List.mem_cons_self x xs)
    have h2 : bval xs < 2 ^ (8 * xs.length) := ih (fun y hy => h y (List.mem_cons_of_mem x hy))
    rw [bval_cons]
    have : (2 : Nat) ^ (8 * (x :: xs).length) = 256 * 2 ^ (8 * xs.length) := by
      rw [List.length_cons]
      rw [show 8 * (xs.length + 1) = 8 + 8 * xs.length by ring, Nat.pow_add]
    omega

theorem bval_append_single : ∀ (l : List Nat) (x : Nat),
    bval (l ++ [x]) = bval l + x * 2 ^ (8 * l.length) := by
  intro l
  induction l with
  | nil => intro x; simp [bval]
  | cons y ys ih =>
    intro x
    rw [List.cons_append, bval_cons, bval_cons, ih x, List.length_cons]
    rw [show 8 * (ys.length + 1) = 8 + 8 * ys.length by ring, Nat.pow_add]
    ring

theorem div_pow_xor_distrib (x y n : Nat) : (x ^^^ y) / 2 ^ n = x / 2 ^ n ^^^ y / 2 ^ n := by
  rw [← Nat.shiftRight_eq_div_pow, ← Nat.shiftRight_eq_div_pow, ← Nat.shiftRight_eq_div_pow]
  exact shiftRight_xor_distrib x y n

theorem bval_extract : ∀ (l : List Nat), (∀ x ∈ l, x < 256) →
    ∀ n, bval l / 2 ^ (8 * n) % 256 = l.getD n 0 := by
  intro l
  induction l with
  | nil => intro _ n; simp [bval]
  | cons x xs ih =>
    intro h n
    have h1 : x < 256 := h x (List.mem_cons_self x xs)
    have h2 := ih (fun y hy => h y (List.mem_cons_of_mem x hy))
    match n with
    | 0 =>
      rw [bval_cons, List.getD_cons_zero]
      simp only [Nat.mul_zero, Nat.pow_zero, Nat.div_one]
      rw [Nat.add_mul_mod_self_left, Nat.mod_eq_of_lt h1]
    | n + 1 =>
      rw [bval_cons, List.getD_cons_succ]
      have hsp : (2 : Nat) ^ (8 * (n + 1)) = 256 * 2 ^ (8 * n) := by
        rw [show 8 * (n + 1) = 8 + 8 * n by ring, Nat.pow_add]
      rw [hsp, ← Nat.div_div_eq_div_mul]
      have hdd : (x + 256 * bval xs) / 256 = bval xs := by
        rw [Nat.add_mul_div_left _ _ (by norm_num : (0 : Nat) < 256), Nat.div_eq_of_lt h1]
        omega
      rw [hdd]
      exact h2 n

theorem wval_extract : ∀ (c : List Nat), (∀ w ∈ c, w < 2 ^ 64) →
    ∀ n, wval c / 2 ^ (64 * n) % 2 ^ 64 = c.getD n 0 := by
  intro c
  induction c with
  | nil => intro _ n; simp [wval]
  | cons w ws ih =>
    intro h n
    have h1 : w < 2 ^ 64 := h w (List.mem_cons_self w ws)
    have h2 := ih (fun y hy => h y (List.mem_cons_of_mem w hy))
    rw [wval_cons_add w ws h1]
    match n with
    | 0 =>
      rw [List.getD_cons_zero]
      simp only [Nat.mul_zero, Nat.pow_zero, Nat.div_one]
      rw [Nat.add_mul_mod_self_left, Nat.mod_eq_of_lt h1]
    | n + 1 =>
      rw [List.getD_cons_succ]
      have hsp : (2 : Nat) ^ (64 * (n + 1)) = 2 ^ 64 * 2 ^ (64 * n) := by
        rw [show 64 * (n + 1) = 64 + 64 * n by ring, Nat.pow_add]
      rw [hsp, ← Nat.div_div_eq_div_mul]
      have hdd : (w + 2 ^ 64 * wval ws) / 2 ^ 64 = wval ws := by
        rw [Nat.add_mul_div_left _ _ (Nat.two_pow_pos 64), Nat.div_eq_of_lt h1]
        omega
      rw [hdd]
      exact h2 n

theorem map_getD_range : ∀ (l : List Nat),
    (List.range l.length).map (fun i => l.getD i 0) = l := by
  intro l
  induction l with
  | nil => rfl
  | cons x xs ih =>
    rw [List.length_cons, List.range_succ_eq_map, List.map_cons, List.map_map]
    congr 1

theorem encodeLE_bval (l : List Nat) (hl : l.length = 32) (hb : ∀ x ∈ l, x < 256) :
    encodeLE (bval l) = l := by
  rw [encodeLE]
  have h1 : (List.range 32).map (fun i => bval l / 2 ^ (8 * i) % 256) =
      (List.range 32).map (fun i => l.getD i 0) := by
    apply List.map_congr_left
    intro i _
    exact bval_extract l hb i
  rw [h1, ← hl]
  exact map_getD_range l

theorem bval_encodeLE_aux : ∀ (n : Nat) (v : Nat), v < 2 ^ (8 * n) →
    bval ((List.range n).map (fun i => v / 2 ^ (8 * i) % 256)) = v := by
  intro n
  induction n with
  | zero =>
    intro v hv
    have : v = 0 := by simpa using hv
    simp [this, bval]
  | succ n ih =>
    intro v hv
    rw [List.range_succ_eq_map, List.map_cons, List.map_map]
    have hhead : v / 2 ^ (8 * 0) % 256 = v % 256 := by norm_num
    have htail : ((fun i => v / 2 ^ (8 * i) % 256) ∘ Nat.succ) =
        fun i => (v / 256) / 2 ^ (8 * i) % 256 := by
      funext i
      have : (2 : Nat) ^ (8 * Nat.succ i) = 256 * 2 ^ (8 * i) := by
        rw [show 8 * Nat.succ i = 8 + 8 * i by omega, Nat.pow_add]
      simp only [Function.comp]
      rw [this, ← Nat.div_div_eq_div_mul]
    rw [hhead, htail, bval_cons]
    have hv' : v / 256 < 2 ^ (8 * n) := by
      have h2 : (2 : Nat) ^ (8 * (n + 1)) = 256 * 2 ^ (8 * n) := by
        rw [show 8 * (n + 1) = 8 + 8 * n by ring, Nat.pow_add]
      rw [h2] at hv
      omega
    rw [ih (v / 256) hv']
    omega

theorem bval_encodeLE (v : Nat) (hv : v < 2 ^ 256) : bval (encodeLE v) = v := by
  rw [encodeLE]
  exact bval_encodeLE_aux 32 v (by norm_num at hv ⊢; exact hv)

theorem encodeLE_length (v : Nat) : (encodeLE v).length = 32 := by
  simp [encodeLE]

theorem encodeLE_mem_lt (v : Nat) : ∀ x ∈ encodeLE v, x < 256 := by
  intro x hx
  simp only [encodeLE, List.mem_map] at hx
  obtain ⟨i, _, rfl⟩ := hx
  exact Nat.mod_lt _ (by norm_num)

theorem bvalX_zipWith_xor : ∀ (l1 l2 : List Nat), l1.length = l2.length →
    bvalX (List.zipWith (fun a b => a ^^^ b) l1 l2) = bvalX l1 ^^^ bvalX l2 := by
  intro l1
  induction l1 with
  | nil =>
    intro l2 h
    have : l2 = [] := List.eq_nil_of_length_eq_zero (by simpa using h.symm)
    subst this; rfl
  | cons x xs ih =>
    intro l2 h
    match l2 with
    | [] => simp at h
    | y :: ys =>
      rw [List.zipWith_cons_cons, bvalX_cons, bvalX_cons, bvalX_cons]
      rw [ih ys (by simpa using h), shiftLeft_xor_distrib]
      simp [Nat.xor_assoc, Nat.xor_comm, xor_left_comm]

theorem zipWith_xor_map : ∀ (l : List Nat) (f g : Nat → Nat),
    List.zipWith (fun a b => a ^^^ b) (l.map f) (l.map g) = l.map (fun i => f i ^^^ g i) := by
  intro l
  induction l with
  | nil => intro f g; rfl
  | cons x xs ih =>
    intro f g
    rw [List.map_cons, List.map_cons, List.zipWith_cons_cons, List.map_cons, ih]

theorem encodeLE_xor (v w : Nat) :
    encodeLE (v ^^^ w) = List.zipWith (fun a b => a ^^^ b) (encodeLE v) (encodeLE w) := by
  rw [encodeLE, encodeLE, encodeLE, zipWith_xor_map]
  apply List.map_congr_left
  intro i _
  rw [div_pow_xor_distrib]
  have h256 : (256 : Nat) = 2 ^ 8 := by norm_num
  rw [h256, mod_two_pow_xor_distrib]

/-! ### Correctness of pack -/

theorem getD_prop {l : List Nat} {P : Nat → Prop} (h : ∀ x ∈ l, P x) {n : Nat}
    (hn : n < l.length) : P (l.getD n 0) := by
  rw [List.getD_eq_getElem l 0 hn]
  exact h _ (List.getElem_mem hn)

theorem getD_replicate4 (j : Nat) : (List.replicate 4 (0 : Nat)).getD j 0 = 0 := by
  match j with
  | 0 => rfl
  | 1 => rfl
  | 2 => rfl
  | 3 => rfl
  | j + 4 => rfl

/-- packPartial is the packing fold stopped after the first m bytes (proof
auxiliary; `pack X = packPartial X 32`). -/
def packPartial (X : List Nat) (m : Nat) : List Nat :=
  (List.range m).foldl (packStep X) (List.replicate 4 0)

theorem packPartial_succ (X : List Nat) (m : Nat) :
    packPartial X (m + 1) = packStep X (packPartial X m) m := by
  rw [packPartial, packPartial, List.range_succ, List.foldl_append, List.foldl_cons,
    List.foldl_nil]

theorem bval_take_succ (X : List Nat) (m : Nat) (hm : m < X.length) :
    bval (X.take (m + 1)) = bval (X.take m) + X.getD m 0 * 2 ^ (8 * m) := by
  rw [List.take_succ, List.getElem?_eq_getElem hm]
  show bval (X.take m ++ [X[m]]) = _
  rw [bval_append_single, List.length_take]
  rw [List.getD_eq_getElem X 0 hm]
  have hmin : m ⊓ X.length = m := by omega
  rw [hmin]

theorem packPartial_spec (X : List Nat) (hX : ∀ x ∈ X, x < 256) (hlen : 32 ≤ X.length) :
    ∀ m, m ≤ 32 →
      (packPartial X m).length = 4 ∧
      (∀ j, (packPartial X m).getD j 0 < 2 ^ 64) ∧
      (packPartial X m).getD (m / 8) 0 < 2 ^ (8 * (m % 8)) ∧
      (∀ j, m / 8 < j → (packPartial X m).getD j 0 = 0) ∧
      wval (packPartial X m) = bval (X.take m) := by
  intro m
  induction m with
  | zero =>
    intro _
    refine ⟨rfl, ?_, ?_, ?_, ?_⟩
    · intro j; rw [show packPartial X 0 = List.replicate 4 0 from rfl, getD_replicate4]
      exact Nat.two_pow_pos 64
    · rw [show packPartial X 0 = List.replicate 4 0 from rfl, getD_replicate4]
      exact Nat.two_pow_pos 0
    · intro j _; rw [show packPartial X 0 = List.replicate 4 0 from rfl, getD_replicate4]
    · rfl
  | succ m ih =>
    intro hm32
    obtain ⟨hl, hw, hcur, hzero, hval⟩ := ih (by omega)
    set acc := packPartial X m with hacc
    have hq : m / 8 < 4 := by omega
    have hq4 : m / 8 < acc.length := by omega
    have hv : X.getD m 0 < 256 := getD_prop hX (by omega)
    have hsh : m % 8 * 8 = 8 * (m % 8) := by ring
    have hstep : packPartial X (m + 1) =
        acc.set (m / 8) (acc.getD (m / 8) 0 ||| (X.getD m 0) <<< (m % 8 * 8)) := by
      rw [packPartial_succ, packStep]
    have hxor : acc.getD (m / 8) 0 ||| (X.getD m 0) <<< (m % 8 * 8) =
        acc.getD (m / 8) 0 ^^^ (X.getD m 0) <<< (m % 8 * 8) := by
      rw [hsh]
      exact lor_eq_xor_disjoint (8 * (m % 8)) _ _ hcur
    have hadd : acc.getD (m / 8) 0 ||| (X.getD m 0) <<< (m % 8 * 8) =
        acc.getD (m / 8) 0 + (X.getD m 0) <<< (m % 8 * 8) := by
      rw [hsh]
      exact lor_disjoint_add (8 * (m % 8)) _ _ hcur
    have hnewlt : acc.getD (m / 8) 0 + (X.getD m 0) <<< (m % 8 * 8) <
        2 ^ (8 * (m % 8) + 8) := by
      rw [hsh, Nat.shiftLeft_eq]
      have h1 : (2 : Nat) ^ (8 * (m % 8) + 8) = 2 ^ (8 * (m % 8)) * 256 := by
        rw [Nat.pow_add]
      have h2 : (X.getD m 0) * 2 ^ (8 * (m % 8)) ≤ 255 * 2 ^ (8 * (m % 8)) :=
        Nat.mul_le_mul_right _ (by omega)
      omega
    have hmlt64 : 8 * (m % 8) + 8 ≤ 64 := by omega
    have hpowle : (2 : Nat) ^ (8 * (m % 8) + 8) ≤ 2 ^ 64 :=
      Nat.pow_le_pow_right (by omega) hmlt64
    refine ⟨?_, ?_, ?_, ?_, ?_⟩
    · rw [hstep, List.length_set]; exact hl
    · intro j
      by_cases hj : m / 8 = j
      · subst hj
        rw [hstep, getD_set_self _ _ _ hq4, hadd]
        omega
      · rw [hstep, getD_set_ne _ _ hj]
        exact hw j
    · by_cases hr : m % 8 = 7
      · have hq' : (m + 1) / 8 = m / 8 + 1 := by omega
        have hne : m / 8 ≠ (m + 1) / 8 := by omega
        rw [hstep, getD_set_ne _ _ hne, hzero _ (by omega)]
        exact Nat.two_pow_pos _
      · have hq' : (m + 1) / 8 = m / 8 := by omega
        have hr' : (m + 1) % 8 = m % 8 + 1 := by omega
        rw [hstep, hq', getD_set_self _ _ _ hq4, hadd, hr']
        calc acc.getD (m / 8) 0 + (X.getD m 0) <<< (m % 8 * 8) <
              2 ^ (8 * (m % 8) + 8) := hnewlt
          _ = 2 ^ (8 * (m % 8 + 1)) := by rw [show 8 * (m % 8 + 1) = 8 * (m % 8) + 8 by ring]
    · intro j hj
      have hne : m / 8 ≠ j := by omega
      rw [hstep, getD_set_ne _ _ hne]
      exact hzero j (by omega)
    · rw [hstep, hxor, wval_set_xor _ _ _ hq4, hval]
      have hcomb : ((X.getD m 0) <<< (m % 8 * 8)) <<< (64 * (m / 8)) =
          (X.getD m 0) <<< (8 * m) := by
        rw [← Nat.shiftLeft_add]
        congr 1
        omega
      rw [hcomb]
      have hbv : bval (X.take m) < 2 ^ (8 * m) := by
        have := bval_lt (X.take m) (fun x hx => hX x (List.mem_of_mem_take hx))
        rw [List.length_take] at this
        have hmin : m ⊓ X.length = m := by omega
        rw [hmin] at this
        exact this
      rw [xor_disjoint_add (8 * m) _ _ hbv, bval_take_succ X m (by omega), Nat.shiftLeft_eq]

theorem pack_spec (X : List Nat) (hX : ∀ x ∈ X, x < 256) (hlen : X.length = 32) :
    (pack X).length = 4 ∧ (∀ j, (pack X).getD j 0 < 2 ^ 64) ∧ wval (pack X) = bval X := by
  have h := packPartial_spec X hX (by omega) 32 (by omega)
  obtain ⟨h1, h2, _, _, h5⟩ := h
  have hp : pack X = packPartial X 32 := rfl
  refine ⟨by rw [hp]; exact h1, by rw [hp]; exact h2, ?_⟩
  rw [hp, h5, ← hlen, List.take_length]

theorem packPartial_congr (X Y : List Nat) (h : ∀ i, i < 32 → X.getD i 0 = Y.getD i 0) :
    ∀ m, m ≤ 32 → packPartial X m = packPartial Y m := by
  intro m
  induction m with
  | zero => intro _; rfl
  | succ m ih =>
    intro hm
    rw [packPartial_succ, packPartial_succ, ih (by omega), packStep, packStep,
      h m (by omega)]

/-- pack_congr: pack reads only the first 32 bytes of its input. -/
theorem pack_congr (X Y : List Nat) (h : ∀ i, i < 32 → X.getD i 0 = Y.getD i 0) :
    pack X = pack Y :=
  packPartial_congr X Y h 32 (by omega)

attribute [irreducible] pack packStep packPartial

/-! ### Correctness of the comb multiplication loop -/

theorem ite_shift (c : Prop) [Decidable c] (t s : Nat) :
    (if c then t else 0) <<< s = if c then t <<< s else 0 := by
  by_cases h : c <;> simp [h, Nat.zero_shiftLeft]

theorem forall_mem_set {l : List Nat} {P : Nat → Prop} (hl : ∀ w ∈ l, P w) {v : Nat}
    (hv : P v) (n : Nat) : ∀ w ∈ l.set n v, P w := by
  intro w hw
  rcases List.mem_or_eq_of_mem_set hw with h | h
  · exact hl w h
  · subst h; exact hv

theorem getD_lt {l : List Nat} {B : Nat} (h : ∀ w ∈ l, w < B) (hB : 0 < B) (n : Nat) :
    l.getD n 0 < B := by
  by_cases hn : n < l.length
  · exact getD_prop h hn
  · rw [List.getD_eq_getElem?_getD, List.getElem?_eq_none (by omega)]
    exact hB

/-- combMask_spec: the branch-free mask is all-ones exactly when bit k of the
word is set, and all-zero otherwise. -/
theorem combMask_spec (w k : Nat) :
    combMask w k = if w.testBit k then 2 ^ 64 - 1 else 0 := by
  rw [combMask, Nat.land_comm, Nat.one_and_eq_mod_two]
  rw [Nat.testBit_to_div_mod, ← Nat.shiftRight_eq_div_pow]
  rcases Nat.mod_two_eq_zero_or_one (w >>> k) with h | h
  · rw [h]
    simp
  · rw [h]
    simp [Nat.mod_eq_of_lt]

theorem and_full_mask {x : Nat} (h : x < 2 ^ 64) : x &&& (2 ^ 64 - 1) = x := by
  rw [Nat.and_pow_two_sub_one_eq_mod, Nat.mod_eq_of_lt h]

/-- combInner_wval: the inner fold XORs the masked 5-word buffer into the
accumulator at word offset j. -/
theorem combInner_wval (c b : List Nat) (mask j : Nat) (hc : c.length = 8) (hj : j ≤ 3) :
    wval (combInner b mask j c) =
      wval c ^^^ (b.getD 0 0 &&& mask) <<< (64 * (j + 0)) ^^^
        (b.getD 1 0 &&& mask) <<< (64 * (j + 1)) ^^^
        (b.getD 2 0 &&& mask) <<< (64 * (j + 2)) ^^^
        (b.getD 3 0 &&& mask) <<< (64 * (j + 3)) ^^^
        (b.getD 4 0 &&& mask) <<< (64 * (j + 4)) := by
  have hr5 : List.range 5 = [0, 1, 2, 3, 4] := rfl
  rw [combInner, hr5, List.foldl_cons, List.foldl_cons, List.foldl_cons, List.foldl_cons,
    List.foldl_cons, List.foldl_nil]
  have len0 : c.length = 8 := hc
  have hlt : ∀ i : Nat, i ≤ 4 → j + i < 8 := by omega
  set v0 := b.getD 0 0 &&& mask
  set v1 := b.getD 1 0 &&& mask
  set v2 := b.getD 2 0 &&& mask
  set v3 := b.getD 3 0 &&& mask
  set v4 := b.getD 4 0 &&& mask
  set c0 := c.set (j + 0) (c.getD (j + 0) 0 ^^^ v0) with hc0
  have hl0 : c0.length = 8 := by rw [hc0, List.length_set, hc]
  have hw0 : wval c0 = wval c ^^^ v0 <<< (64 * (j + 0)) :=
    wval_set_xor v0 c (j + 0) (by omega)
  have hg1 : c0.getD (j + 1) 0 = c.getD (j + 1) 0 := getD_set_ne _ _ (by omega)
  set c1 := c0.set (j + 1) (c0.getD (j + 1) 0 ^^^ v1) with hc1
  have hl1 : c1.length = 8 := by rw [hc1, List.length_set, hl0]
  have hw1 : wval c1 = wval c0 ^^^ v1 <<< (64 * (j + 1)) :=
    wval_set_xor v1 c0 (j + 1) (by omega)
  set c2 := c1.set (j + 2) (c1.getD (j + 2) 0 ^^^ v2) with hc2
  have hl2 : c2.length = 8 := by rw [hc2, List.length_set, hl1]
  have hw2 : wval c2 = wval c1 ^^^ v2 <<< (64 * (j + 2)) :=
    wval_set_xor v2 c1 (j + 2) (by omega)
  set c3 := c2.set (j + 3) (c2.getD (j + 3) 0 ^^^ v3) with hc3
  have hl3 : c3.length = 8 := by rw [hc3, List.length_set, hl2]
  have hw3 : wval c3 = wval c2 ^^^ v3 <<< (64 * (j + 3)) :=
    wval_set_xor v3 c2 (j + 3) (by omega)
  have hw4 : wval (c3.set (j + 4) (c3.getD (j + 4) 0 ^^^ v4)) =
      wval c3 ^^^ v4 <<< (64 * (j + 4)) :=
    wval_set_xor v4 c3 (j + 4) (by omega)
  rw [hw4, hw3, hw2, hw1, hw0]

theorem combInner_wf (c b : List Nat) (mask j : Nat) (hc : c.length = 8)
    (hcw : ∀ w ∈ c, w < 2 ^ 64) (hbw : ∀ w ∈ b, w < 2 ^ 64) :
    (combInner b mask j c).length = 8 ∧ ∀ w ∈ combInner b mask j c, w < 2 ^ 64 := by
  have hr5 : List.range 5 = [0, 1, 2, 3, 4] := rfl
  rw [combInner, hr5, List.foldl_cons, List.foldl_cons, List.foldl_cons, List.foldl_cons,
    List.foldl_cons, List.foldl_nil]
  have hstep : ∀ (l : List Nat) (i : Nat), (∀ w ∈ l, w < 2 ^ 64) →
      (∀ w ∈ l.set (j + i) (l.getD (j + i) 0 ^^^ (b.getD i 0 &&& mask)), w < 2 ^ 64) := by
    intro l i hl
    apply forall_mem_set hl
    apply Nat.xor_lt_two_pow (getD_lt hl (Nat.two_pow_pos 64) _)
    calc b.getD i 0 &&& mask ≤ b.getD i 0 := Nat.and_le_left
      _ < 2 ^ 64 := getD_lt hbw (Nat.two_pow_pos 64) _
  constructor
  · simp [List.length_set, hc]
  · exact hstep _ 4 (hstep _ 3 (hstep _ 2 (hstep _ 1 (hstep _ 0 hcw))))

/-- wval5_shift: the value of a 5-word buffer shifted to word offset j,
split into its per-word contributions. -/
theorem wval5_shift (b : List Nat) (j : Nat) (hb : b.length = 5) :
    (wval b) <<< (64 * j) =
      (b.getD 0 0) <<< (64 * (j + 0)) ^^^ (b.getD 1 0) <<< (64 * (j + 1)) ^^^
        (b.getD 2 0) <<< (64 * (j + 2)) ^^^ (b.getD 3 0) <<< (64 * (j + 3)) ^^^
        (b.getD 4 0) <<< (64 * (j + 4)) := by
  match b, hb with
  | [b0, b1, b2, b3, b4], _ =>
    show (wval [b0, b1, b2, b3, b4]) <<< (64 * j) = _
    have hw : wval [b0, b1, b2, b3, b4] =
        b0 ^^^ (b1 ^^^ (b2 ^^^ (b3 ^^^ (b4 ^^^ 0 <<< 64) <<< 64) <<< 64) <<< 64) <<< 64 := rfl
    rw [hw]
    simp only [Nat.zero_shiftLeft, Nat.xor_zero, shiftLeft_xor_distrib, ← Nat.shiftLeft_add]
    have e4 : (64 : Nat) + 64 + 64 + 64 + 64 * j = 64 * (j + 4) := by ring
    have e3 : (64 : Nat) + 64 + 64 + 64 * j = 64 * (j + 3) := by ring
    have e2 : (64 : Nat) + 64 + 64 * j = 64 * (j + 2) := by ring
    have e1 : (64 : Nat) + 64 * j = 64 * (j + 1) := by ring
    have e0 : (64 : Nat) * j = 64 * (j + 0) := by ring
    rw [e4, e3, e2, e1, e0]
    simp [Nat.xor_assoc, List.getD_cons_zero, List.getD_cons_succ]

/-- combInner_masked: one conditional fold of the shifted B into the
accumulator: it XORs in the 5-word buffer at offset j exactly when bit k of
the corresponding word of A is set. -/
theorem combInner_masked (c b : List Nat) (w k j : Nat) (hc : c.length = 8) (hj : j ≤ 3)
    (hb : b.length = 5) (hbw : ∀ w ∈ b, w < 2 ^ 64) :
    wval (combInner b (combMask w k) j c) =
      wval c ^^^ (if w.testBit k then (wval b) <<< (64 * j) else 0) := by
  rw [combInner_wval c b _ j hc hj, combMask_spec]
  by_cases h : w.testBit k
  · simp only [h, if_true]
    rw [wval5_shift b j hb]
    have m0 : b.getD 0 0 &&& (2 ^ 64 - 1) = b.getD 0 0 :=
      and_full_mask (getD_lt hbw (Nat.two_pow_pos 64) 0)
    have m1 : b.getD 1 0 &&& (2 ^ 64 - 1) = b.getD 1 0 :=
      and_full_mask (getD_lt hbw (Nat.two_pow_pos 64) 1)
    have m2 : b.getD 2 0 &&& (2 ^ 64 - 1) = b.getD 2 0 :=
      and_full_mask (getD_lt hbw (Nat.two_pow_pos 64) 2)
    have m3 : b.getD 3 0 &&& (2 ^ 64 - 1) = b.getD 3 0 :=
      and_full_mask (getD_lt hbw (Nat.two_pow_pos 64) 3)
    have m4 : b.getD 4 0 &&& (2 ^ 64 - 1) = b.getD 4 0 :=
      and_full_mask (getD_lt hbw (Nat.two_pow_pos 64) 4)
    rw [m0, m1, m2, m3, m4]
    simp [Nat.xor_assoc]
  · simp only [h, if_false]
    simp [Nat.and_zero, Nat.zero_shiftLeft]

/-- combK is the value XORed into the 512-bit accumulator during comb
iteration k: for each source word j, the shifted B (already multiplied by
X^k) lands at word offset j when bit k of a[j] is set. -/
def combK (a : List Nat) (B0 k : Nat) : Nat :=
  (if (a.getD 0 0).testBit k then (B0 <<< k) <<< (64 * 0) else 0) ^^^
    (if (a.getD 1 0).testBit k then (B0 <<< k) <<< (64 * 1) else 0) ^^^
    (if (a.getD 2 0).testBit k then (B0 <<< k) <<< (64 * 2) else 0) ^^^
    (if (a.getD 3 0).testBit k then (B0 <<< k) <<< (64 * 3) else 0)

/-- combAcc is the accumulator value after the first k comb iterations. -/
def combAcc (a : List Nat) (B0 : Nat) : Nat → Nat
  | 0 => 0
  | k + 1 => combAcc a B0 k ^^^ combK a B0 k

theorem combJ_masked (a c b : List Nat) (k : Nat) (hc : c.length = 8)
    (hcw : ∀ w ∈ c, w < 2 ^ 64) (hb : b.length = 5) (hbw : ∀ w ∈ b, w < 2 ^ 64) :
    wval (combJ a b k c) =
      wval c ^^^ (if (a.getD 0 0).testBit k then (wval b) <<< (64 * 0) else 0) ^^^
        (if (a.getD 1 0).testBit k then (wval b) <<< (64 * 1) else 0) ^^^
        (if (a.getD 2 0).testBit k then (wval b) <<< (64 * 2) else 0) ^^^
        (if (a.getD 3 0).testBit k then (wval b) <<< (64 * 3) else 0) := by
  have hr4 : List.range 4 = [0, 1, 2, 3] := rfl
  rw [combJ, hr4, List.foldl_cons, List.foldl_cons, List.foldl_cons, List.foldl_cons,
    List.foldl_nil]
  obtain ⟨hl0, hw0⟩ := combInner_wf c b (combMask (a.getD 0 0) k) 0 hc hcw hbw
  obtain ⟨hl1, hw1⟩ := combInner_wf _ b (combMask (a.getD 1 0) k) 1 hl0 hw0 hbw
  obtain ⟨hl2, hw2⟩ := combInner_wf _ b (combMask (a.getD 2 0) k) 2 hl1 hw1 hbw
  rw [combInner_masked _ b _ k 3 hl2 (by omega) hb hbw,
    combInner_masked _ b _ k 2 hl1 (by omega) hb hbw,
    combInner_masked _ b _ k 1 hl0 (by omega) hb hbw,
    combInner_masked c b _ k 0 hc (by omega) hb hbw]

theorem combJ_wf (a c b : List Nat) (k : Nat) (hc : c.length = 8)
    (hcw : ∀ w ∈ c, w < 2 ^ 64) (hbw : ∀ w ∈ b, w < 2 ^ 64) :
    (combJ a b k c).length = 8 ∧ ∀ w ∈ combJ a b k c, w < 2 ^ 64 := by
  have hr4 : List.range 4 = [0, 1, 2, 3] := rfl
  rw [combJ, hr4, List.foldl_cons, List.foldl_cons, List.foldl_cons, List.foldl_cons,
    List.foldl_nil]
  obtain ⟨hl0, hw0⟩ := combInner_wf c b (combMask (a.getD 0 0) k) 0 hc hcw hbw
  obtain ⟨hl1, hw1⟩ := combInner_wf _ b (combMask (a.getD 1 0) k) 1 hl0 hw0 hbw
  obtain ⟨hl2, hw2⟩ := combInner_wf _ b (combMask (a.getD 2 0) k) 2 hl1 hw1 hbw
  exact combInner_wf _ b (combMask (a.getD 3 0) k) 3 hl2 hw2 hbw

theorem wval5_add (b0 b1 b2 b3 b4 : Nat) (h0 : b0 < 2 ^ 64) (h1 : b1 < 2 ^ 64)
    (h2 : b2 < 2 ^ 64) (h3 : b3 < 2 ^ 64) (h4 : b4 < 2 ^ 64) :
    wval [b0, b1, b2, b3, b4] =
      b0 + 2 ^ 64 * (b1 + 2 ^ 64 * (b2 + 2 ^ 64 * (b3 + 2 ^ 64 * b4))) := by
  rw [wval_cons_add _ _ h0, wval_cons_add _ _ h1, wval_cons_add _ _ h2,
    wval_cons_add _ _ h3, wval_cons_add _ _ h4]
  show b0 + 2 ^ 64 * (b1 + 2 ^ 64 * (b2 + 2 ^ 64 * (b3 + 2 ^ 64 * (b4 + 2 ^ 64 * wval [])))) = _
  have hnil : wval [] = 0 := rfl
  rw [hnil]
  ring

theorem shiftB_spec (b : List Nat) (hb : b.length = 5) (hbw : ∀ w ∈ b, w < 2 ^ 64)
    (hval : wval b < 2 ^ 319) :
    (shiftB b).length = 5 ∧ (∀ w ∈ shiftB b, w < 2 ^ 64) ∧
      wval (shiftB b) = (wval b) <<< 1 := by
  match b, hb with
  | [b0, b1, b2, b3, b4], _ =>
    have h0 : b0 < 2 ^ 64 := hbw b0 (by simp)
    have h1 : b1 < 2 ^ 64 := hbw b1 (by simp)
    have h2 : b2 < 2 ^ 64 := hbw b2 (by simp)
    have h3 : b3 < 2 ^ 64 := hbw b3 (by simp)
    have h4 : b4 < 2 ^ 64 := hbw b4 (by simp)
    have hsh : shiftB [b0, b1, b2, b3, b4] =
        [(b0 <<< 1) % 2 ^ 64,
         (b1 <<< 1) % 2 ^ 64 ||| b0 >>> 63,
         (b2 <<< 1) % 2 ^ 64 ||| b1 >>> 63,
         (b3 <<< 1) % 2 ^ 64 ||| b2 >>> 63,
         (b4 <<< 1) % 2 ^ 64 ||| b3 >>> 63] := rfl
    have hor : ∀ x y : Nat, x < 2 ^ 64 → y < 2 ^ 64 →
        (y <<< 1) % 2 ^ 64 ||| x >>> 63 = 2 * (y % 2 ^ 63) + x / 2 ^ 63 := by
      intro x y hx hy
      have hm : (y <<< 1) % 2 ^ 64 = (y % 2 ^ 63) <<< 1 := by
        rw [Nat.shiftLeft_eq, Nat.shiftLeft_eq]
        omega
      rw [hm, Nat.shiftRight_eq_div_pow, Nat.lor_comm,
        lor_disjoint_add 1 (x / 2 ^ 63) (y % 2 ^ 63) (by omega)]
      rw [Nat.shiftLeft_eq]
      ring
    have e0 : (b0 <<< 1) % 2 ^ 64 = 2 * (b0 % 2 ^ 63) := by
      rw [Nat.shiftLeft_eq]
      omega
    have e1 := hor b0 b1 h0 h1
    have e2 := hor b1 b2 h1 h2
    have e3 := hor b2 b3 h2 h3
    have e4 := hor b3 b4 h3 h4
    have hv : wval [b0, b1, b2, b3, b4] =
        b0 + 2 ^ 64 * (b1 + 2 ^ 64 * (b2 + 2 ^ 64 * (b3 + 2 ^ 64 * b4))) :=
      wval5_add b0 b1 b2 b3 b4 h0 h1 h2 h3 h4
    have hb4 : b4 < 2 ^ 63 := by
      rw [hv] at hval
      omega
    have hb4' : b4 / 2 ^ 63 = 0 := by omega
    refine ⟨by rw [hsh]; rfl, ?_, ?_⟩
    · rw [hsh]
      intro w hw
      simp only [List.mem_cons, List.not_mem_nil, or_false] at hw
      rcases hw with h | h | h | h | h <;> subst h
      · omega
      · rw [e1]; omega
      · rw [e2]; omega
      · rw [e3]; omega
      · rw [e4]; omega
    · rw [hsh, hv]
      have hw' : wval [(b0 <<< 1) % 2 ^ 64,
          (b1 <<< 1) % 2 ^ 64 ||| b0 >>> 63,
          (b2 <<< 1) % 2 ^ 64 ||| b1 >>> 63,
          (b3 <<< 1) % 2 ^ 64 ||| b2 >>> 63,
          (b4 <<< 1) % 2 ^ 64 ||| b3 >>> 63] =
          2 * (b0 % 2 ^ 63) +
            2 ^ 64 * ((2 * (b1 % 2 ^ 63) + b0 / 2 ^ 63) +
              2 ^ 64 * ((2 * (b2 % 2 ^ 63) + b1 / 2 ^ 63) +
                2 ^ 64 * ((2 * (b3 % 2 ^ 63) + b2 / 2 ^ 63) +
                  2 ^ 64 * (2 * (b4 % 2 ^ 63) + b3 / 2 ^ 63)))) := by
        rw [← e0, ← e1, ← e2, ← e3, ← e4]
        apply wval5_add <;> omega
      rw [hw', Nat.shiftLeft_eq]
      have d0 := Nat.div_add_mod b0 (2 ^ 63)
      have d1 := Nat.div_add_mod b1 (2 ^ 63)
      have d2 := Nat.div_add_mod b2 (2 ^ 63)
      have d3 := Nat.div_add_mod b3 (2 ^ 63)
      have d4 := Nat.div_add_mod b4 (2 ^ 63)
      omega

/-- combState is the comb loop stopped after k iterations (proof auxiliary;
`combLoop a b = combState a b 64`). -/
def combState (a b0 : List Nat) (k : Nat) : List Nat × List Nat :=
  (List.range k).foldl (combIter a) (List.replicate 8 0, b0)

theorem combState_succ (a b0 : List Nat) (k : Nat) :
    combState a b0 (k + 1) = combIter a (combState a b0 k) k := by
  rw [combState, combState, List.range_succ, List.foldl_append, List.foldl_cons,
    List.foldl_nil]

theorem combIter_eq (a : List Nat) (st : List Nat × List Nat) (k : Nat) :
    combIter a st k = (combJ a st.2 k st.1, shiftB st.2) := rfl

attribute [irreducible] combInner combJ shiftB combMask combIter

theorem combState_spec (a b0 : List Nat) (hb5 : b0.length = 5)
    (hbw : ∀ w ∈ b0, w < 2 ^ 64) (hbv : wval b0 < 2 ^ 256) :
    ∀ k, k ≤ 64 →
      (combState a b0 k).1.length = 8 ∧ (∀ w ∈ (combState a b0 k).1, w < 2 ^ 64) ∧
      (combState a b0 k).2.length = 5 ∧ (∀ w ∈ (combState a b0 k).2, w < 2 ^ 64) ∧
      wval (combState a b0 k).2 = (wval b0) <<< k ∧
      wval (combState a b0 k).1 = combAcc a (wval b0) k := by
  intro k
  induction k with
  | zero =>
    intro _
    refine ⟨rfl, ?_, hb5, hbw, ?_, rfl⟩
    · intro w hw
      have := List.eq_of_mem_replicate hw
      subst this
      exact Nat.two_pow_pos 64
    · rw [Nat.shiftLeft_zero]
      rfl
  | succ k ih =>
    intro hk
    obtain ⟨hc8, hcw, hb5', hbw', hbvv, hacc⟩ := ih (by omega)
    have hstep : combState a b0 (k + 1) =
        (combJ a (combState a b0 k).2 k (combState a b0 k).1,
         shiftB (combState a b0 k).2) := by
      rw [combState_succ, combIter_eq]
    have hbbound : wval (combState a b0 k).2 < 2 ^ 319 := by
      rw [hbvv, Nat.shiftLeft_eq]
      calc wval b0 * 2 ^ k < 2 ^ 256 * 2 ^ k :=
            (Nat.mul_lt_mul_right (Nat.two_pow_pos k)).mpr hbv
        _ = 2 ^ (256 + k) := by rw [← Nat.pow_add]
        _ ≤ 2 ^ 319 := Nat.pow_le_pow_right (by omega) (by omega)
    obtain ⟨hsl, hsw, hsv⟩ := shiftB_spec (combState a b0 k).2 hb5' hbw' hbbound
    obtain ⟨hjl, hjw⟩ := combJ_wf a (combState a b0 k).1 (combState a b0 k).2 k hc8 hcw hbw'
    refine ⟨?_, ?_, ?_, ?_, ?_, ?_⟩
    · rw [hstep]; exact hjl
    · rw [hstep]; exact hjw
    · rw [hstep]; exact hsl
    · rw [hstep]; exact hsw
    · rw [hstep]
      show wval (shiftB (combState a b0 k).2) = _
      rw [hsv, hbvv, ← Nat.shiftLeft_add]
    · rw [hstep]
      show wval (combJ a (combState a b0 k).2 k (combState a b0 k).1) = _
      rw [combJ_masked a (combState a b0 k).1 (combState a b0 k).2 k hc8 hcw hb5' hbw',
        hbvv, hacc]
      show _ = combAcc a (wval b0) k ^^^ combK a (wval b0) k
      rw [combK]
      simp [Nat.xor_assoc]

/-! ### Correctness of the modular reduction -/

/-- truncVal m c is the value of the low m words of c. -/
def truncVal (m : Nat) (c : List Nat) : Nat := wval (c.take m)

theorem wval_append_single : ∀ (l : List Nat) (x : Nat),
    wval (l ++ [x]) = wval l ^^^ x <<< (64 * l.length) := by
  intro l
  induction l with
  | nil =>
    intro x
    show wval [x] = wval [] ^^^ x <<< (64 * 0)
    show x ^^^ (wval []) <<< 64 = _
    have h1 : wval ([] : List Nat) = 0 := rfl
    rw [h1, Nat.zero_shiftLeft, Nat.xor_zero, Nat.zero_xor, Nat.mul_zero, Nat.shiftLeft_zero]
  | cons w ws ih =>
    intro x
    rw [List.cons_append, wval_cons, wval_cons, ih x, shiftLeft_xor_distrib]
    rw [← Nat.shiftLeft_add, List.length_cons]
    rw [show 64 * ws.length + 64 = 64 * (ws.length + 1) by ring]
    rw [Nat.xor_assoc]

theorem truncVal_succ (c : List Nat) (m : Nat) (hm : m < c.length) :
    truncVal (m + 1) c = truncVal m c ^^^ (c.getD m 0) <<< (64 * m) := by
  rw [truncVal, truncVal, List.take_succ, List.getElem?_eq_getElem hm, Option.toList_some]
  rw [wval_append_single, List.length_take, List.getD_eq_getElem c 0 hm]
  have hmin : m ⊓ c.length = m := by omega
  rw [hmin]

theorem truncVal_set_xor (c : List Nat) (m n v : Nat) (hn : n < m) (hm : m ≤ c.length) :
    truncVal m (c.set n (c.getD n 0 ^^^ v)) = truncVal m c ^^^ v <<< (64 * n) := by
  rw [truncVal, List.set_take]
  have hg : c.getD n 0 = (c.take m).getD n 0 := by
    rw [List.getD_eq_getElem?_getD, List.getD_eq_getElem?_getD, List.getElem?_take]
    simp [hn]
  rw [hg]
  exact wval_set_xor v (c.take m) n (by rw [List.length_take]; omega)

/-- shift_split: a left shift of a 64-bit word by s ≤ 63 splits into the
wrapped low word and the carried-out high word. -/
theorem shift_split (x s : Nat) (hx : x < 2 ^ 64) (hs : s ≤ 63) :
    x <<< s = (x <<< s) % 2 ^ 64 ^^^ (x >>> (64 - s)) <<< 64 := by
  have hm : (x <<< s) % 2 ^ 64 < 2 ^ 64 := Nat.mod_lt _ (Nat.two_pow_pos 64)
  rw [xor_disjoint_add 64 _ _ hm]
  rw [Nat.shiftLeft_eq, Nat.shiftLeft_eq, Nat.shiftRight_eq_div_pow]
  have hdiv : x * 2 ^ s / 2 ^ 64 = x / 2 ^ (64 - s) := by
    have h1 : (2 : Nat) ^ 64 = 2 ^ s * 2 ^ (64 - s) := by
      rw [← Nat.pow_add]
      congr 1
      omega
    rw [h1, ← Nat.div_div_eq_div_mul, Nat.mul_div_cancel _ (Nat.two_pow_pos s)]
  rw [hdiv.symm]
  have := Nat.div_add_mod (x * 2 ^ s) (2 ^ 64)
  omega

theorem clmul_word_rPoly (x : Nat) (hx : x < 2 ^ 64) :
    clmul x rPoly =
      ((x <<< 10) % 2 ^ 64 ^^^ (x <<< 5) % 2 ^ 64 ^^^ (x <<< 2) % 2 ^ 64 ^^^ x) ^^^
        (x >>> 54 ^^^ x >>> 59 ^^^ x >>> 62) <<< 64 := by
  have hr : rPoly = 2 ^ 10 ^^^ 2 ^ 5 ^^^ 2 ^ 2 ^^^ 1 := by decide
  have hx10 : clmul x (2 ^ 10) = x <<< 10 := by rw [clmul_comm, clmul_two_pow]
  have hx5 : clmul x (2 ^ 5) = x <<< 5 := by rw [clmul_comm, clmul_two_pow]
  have hx2 : clmul x (2 ^ 2) = x <<< 2 := by rw [clmul_comm, clmul_two_pow]
  have hx1 : clmul x 1 = x := by rw [clmul_comm, one_clmul]
  have lhs_eq : clmul x rPoly = x <<< 10 ^^^ x <<< 5 ^^^ x <<< 2 ^^^ x := by
    rw [hr, clmul_xor_right, clmul_xor_right, clmul_xor_right, hx10, hx5, hx2, hx1]
  have hs10 := shift_split x 10 hx (by omega)
  have hs5 := shift_split x 5 hx (by omega)
  have hs2 := shift_split x 2 hx (by omega)
  rw [show (64 : Nat) - 10 = 54 by rfl] at hs10
  rw [show (64 : Nat) - 5 = 59 by rfl] at hs5
  rw [show (64 : Nat) - 2 = 62 by rfl] at hs2
  conv_lhs => rw [lhs_eq, hs10, hs5, hs2]
  rw [shiftLeft_xor_distrib, shiftLeft_xor_distrib]
  simp [Nat.xor_assoc, Nat.xor_comm, xor_left_comm]

theorem redStep_spec (c : List Nat) (i : Nat) (h4 : 4 ≤ i) (h7 : i ≤ 7)
    (hc : c.length = 8) (hw : ∀ w ∈ c, w < 2 ^ 64) :
    (redStep c i).length = 8 ∧ (∀ w ∈ redStep c i, w < 2 ^ 64) ∧
      (∀ m, m ≠ i - 4 → m ≠ i - 3 → (redStep c i).getD m 0 = c.getD m 0) ∧
      truncVal i (redStep c i) =
        truncVal i c ^^^ (clmul (c.getD i 0) rPoly) <<< (64 * (i - 4)) := by
  have hp : i - 4 < i := by omega
  have hq : i - 3 < i := by omega
  have hpq : i - 4 ≠ i - 3 := by omega
  have hpl : i - 4 < c.length := by omega
  have hql : i - 3 < c.length := by omega
  have hci : c.getD i 0 < 2 ^ 64 := getD_lt hw (Nat.two_pow_pos 64) i
  set ci := c.getD i 0 with hcidef
  have hv1 : (ci <<< 10) % 2 ^ 64 < 2 ^ 64 := Nat.mod_lt _ (Nat.two_pow_pos 64)
  have hv3 : (ci <<< 5) % 2 ^ 64 < 2 ^ 64 := Nat.mod_lt _ (Nat.two_pow_pos 64)
  have hv5 : (ci <<< 2) % 2 ^ 64 < 2 ^ 64 := Nat.mod_lt _ (Nat.two_pow_pos 64)
  have hv2 : ci >>> 54 < 2 ^ 64 := by
    rw [Nat.shiftRight_eq_div_pow]
    omega
  have hv4 : ci >>> 59 < 2 ^ 64 := by
    rw [Nat.shiftRight_eq_div_pow]
    omega
  have hv6 : ci >>> 62 < 2 ^ 64 := by
    rw [Nat.shiftRight_eq_div_pow]
    omega
  set p := i - 4
  set q := i - 3
  set v1 := (ci <<< 10) % 2 ^ 64 with hv1d
  set v2 := ci >>> 54 with hv2d
  set v3 := (ci <<< 5) % 2 ^ 64 with hv3d
  set v4 := ci >>> 59 with hv4d
  set v5 := (ci <<< 2) % 2 ^ 64 with hv5d
  set v6 := ci >>> 62 with hv6d
  set c1 := c.set p (c.getD p 0 ^^^ v1) with hc1
  have hl1 : c1.length = 8 := by rw [hc1, List.length_set, hc]
  have hm1 : ∀ w ∈ c1, w < 2 ^ 64 :=
    forall_mem_set hw (Nat.xor_lt_two_pow (getD_lt hw (Nat.two_pow_pos 64) p) hv1) p
  have hg1q : c1.getD q 0 = c.getD q 0 := getD_set_ne _ _ hpq
  set c2 := c1.set q (c1.getD q 0 ^^^ v2) with hc2
  have hl2 : c2.length = 8 := by rw [hc2, List.length_set, hl1]
  have hm2 : ∀ w ∈ c2, w < 2 ^ 64 :=
    forall_mem_set hm1 (Nat.xor_lt_two_pow (getD_lt hm1 (Nat.two_pow_pos 64) q) hv2) q
  set c3 := c2.set p (c2.getD p 0 ^^^ v3) with hc3
  have hl3 : c3.length = 8 := by rw [hc3, List.length_set, hl2]
  have hm3 : ∀ w ∈ c3, w < 2 ^ 64 :=
    forall_mem_set hm2 (Nat.xor_lt_two_pow (getD_lt hm2 (Nat.two_pow_pos 64) p) hv3) p
  set c4 := c3.set q (c3.getD q 0 ^^^ v4) with hc4
  have hl4 : c4.length = 8 := by rw [hc4, List.length_set, hl3]
  have hm4 : ∀ w ∈ c4, w < 2 ^ 64 :=
    forall_mem_set hm3 (Nat.xor_lt_two_pow (getD_lt hm3 (Nat.two_pow_pos 64) q) hv4) q
  set c5 := c4.set p (c4.getD p 0 ^^^ v5) with hc5
  have hl5 : c5.length = 8 := by rw [hc5, List.length_set, hl4]
  have hm5 : ∀ w ∈ c5, w < 2 ^ 64 :=
    forall_mem_set hm4 (Nat.xor_lt_two_pow (getD_lt hm4 (Nat.two_pow_pos 64) p) hv5) p
  set c6 := c5.set q (c5.getD q 0 ^^^ v6) with hc6
  have hl6 : c6.length = 8 := by rw [hc6, List.length_set, hl5]
  have hm6 : ∀ w ∈ c6, w < 2 ^ 64 :=
    forall_mem_set hm5 (Nat.xor_lt_two_pow (getD_lt hm5 (Nat.two_pow_pos 64) q) hv6) q
  have hgi1 : c1.getD i 0 = ci := getD_set_ne _ _ (by omega)
  have hgi2 : c2.getD i 0 = ci := by rw [hc2, getD_set_ne _ _ (by omega), hgi1]
  have hgi3 : c3.getD i 0 = ci := by rw [hc3, getD_set_ne _ _ (by omega), hgi2]
  have hgi4 : c4.getD i 0 = ci := by rw [hc4, getD_set_ne _ _ (by omega), hgi3]
  have hgi5 : c5.getD i 0 = ci := by rw [hc5, getD_set_ne _ _ (by omega), hgi4]
  have hgi6 : c6.getD i 0 = ci := by rw [hc6, getD_set_ne _ _ (by omega), hgi5]
  have hred : redStep c i = c6.set p (c6.getD p 0 ^^^ ci) := by
    rw [redStep]
  have hfin : (c6.set p (c6.getD p 0 ^^^ ci)).length = 8 := by rw [List.length_set, hl6]
  have hmfin : ∀ w ∈ c6.set p (c6.getD p 0 ^^^ ci), w < 2 ^ 64 :=
    forall_mem_set hm6 (Nat.xor_lt_two_pow (getD_lt hm6 (Nat.two_pow_pos 64) p) hci) p
  refine ⟨by rw [hred]; exact hfin, by rw [hred]; exact hmfin, ?_, ?_⟩
  · intro m hmp hmq
    rw [hred, getD_set_ne _ _ (by omega), hc6, getD_set_ne _ _ (by omega), hc5,
      getD_set_ne _ _ (by omega), hc4, getD_set_ne _ _ (by omega), hc3,
      getD_set_ne _ _ (by omega), hc2, getD_set_ne _ _ (by omega), hc1,
      getD_set_ne _ _ (by omega)]
  · have ht1 : truncVal i c1 = truncVal i c ^^^ v1 <<< (64 * p) :=
      truncVal_set_xor c i p v1 hp (by omega)
    have ht2 : truncVal i c2 = truncVal i c1 ^^^ v2 <<< (64 * q) :=
      truncVal_set_xor c1 i q v2 hq (by omega)
    have ht3 : truncVal i c3 = truncVal i c2 ^^^ v3 <<< (64 * p) :=
      truncVal_set_xor c2 i p v3 hp (by omega)
    have ht4 : truncVal i c4 = truncVal i c3 ^^^ v4 <<< (64 * q) :=
      truncVal_set_xor c3 i q v4 hq (by omega)
    have ht5 : truncVal i c5 = truncVal i c4 ^^^ v5 <<< (64 * p) :=
      truncVal_set_xor c4 i p v5 hp (by omega)
    have ht6 : truncVal i c6 = truncVal i c5 ^^^ v6 <<< (64 * q) :=
      truncVal_set_xor c5 i q v6 hq (by omega)
    have ht7 : truncVal i (c6.set p (c6.getD p 0 ^^^ ci)) = truncVal i c6 ^^^ ci <<< (64 * p) :=
      truncVal_set_xor c6 i p ci hp (by omega)
    rw [hred, ht7, ht6, ht5, ht4, ht3, ht2, ht1]
    have hkey : clmul ci rPoly <<< (64 * p) =
        v1 <<< (64 * p) ^^^ v2 <<< (64 * q) ^^^ v3 <<< (64 * p) ^^^ v4 <<< (64 * q) ^^^
          v5 <<< (64 * p) ^^^ v6 <<< (64 * q) ^^^ ci <<< (64 * p) := by
      rw [clmul_word_rPoly ci hci, ← hv1d, ← hv2d, ← hv3d, ← hv4d, ← hv5d, ← hv6d]
      have hq64 : 64 * q = 64 + 64 * p := by omega
      simp only [shiftLeft_xor_distrib, ← Nat.shiftLeft_add, hq64]
      simp [Nat.xor_assoc, Nat.xor_comm, xor_left_comm]
    rw [hkey]
    simp [Nat.xor_assoc, Nat.xor_comm, xor_left_comm]

theorem xor_cancel_pair (A u v : Nat) : (A ^^^ u) ^^^ (A ^^^ v) = u ^^^ v := by
  rw [Nat.xor_comm A u, Nat.xor_assoc, Nat.xor_cancel_left]

/-- congF_redStep: one reduction step preserves the residue class modulo
fPoly of the not-yet-consumed part of the accumulator: dropping word i and
folding it down changes the value by a carry-less multiple of fPoly. -/
theorem congF_redStep (d : List Nat) (i : Nat) (h4 : 4 ≤ i) (h7 : i ≤ 7)
    (hl : d.length = 8) (hw : ∀ w ∈ d, w < 2 ^ 64) :
    CongF (truncVal (i + 1) d) (truncVal i (redStep d i)) := by
  obtain ⟨_, _, _, hval⟩ := redStep_spec d i h4 h7 hl hw
  refine ⟨(d.getD i 0) <<< (64 * (i - 4)), ?_⟩
  rw [truncVal_succ d i (by omega), hval, xor_cancel_pair]
  rw [shiftLeft_clmul, clmul_fPoly_split, shiftLeft_xor_distrib, ← Nat.shiftLeft_add]
  rw [show 256 + 64 * (i - 4) = 64 * i by omega]
  exact Nat.xor_comm _ _

attribute [irreducible] redStep

theorem reduce_eq (c : List Nat) :
    reduce c = redStep (redStep (redStep (redStep c 7) 6) 5) 4 := by
  rw [reduce, List.foldl_cons, List.foldl_cons, List.foldl_cons, List.foldl_cons,
    List.foldl_nil]

theorem reduce_spec (c : List Nat) (hc : c.length = 8) (hw : ∀ w ∈ c, w < 2 ^ 64) :
    (reduce c).length = 8 ∧ (∀ w ∈ reduce c, w < 2 ^ 64) ∧
      wval ((reduce c).take 4) = polyModF (wval c) := by
  obtain ⟨hl1, hw1, _, _⟩ := redStep_spec c 7 (by omega) (by omega) hc hw
  obtain ⟨hl2, hw2, _, _⟩ := redStep_spec (redStep c 7) 6 (by omega) (by omega) hl1 hw1
  obtain ⟨hl3, hw3, _, _⟩ :=
    redStep_spec (redStep (redStep c 7) 6) 5 (by omega) (by omega) hl2 hw2
  obtain ⟨hl4, hw4, _, _⟩ :=
    redStep_spec (redStep (redStep (redStep c 7) 6) 5) 4 (by omega) (by omega) hl3 hw3
  have e1 : CongF (truncVal 8 c) (truncVal 7 (redStep c 7)) :=
    congF_redStep c 7 (by omega) (by omega) hc hw
  have e2 : CongF (truncVal 7 (redStep c 7)) (truncVal 6 (redStep (redStep c 7) 6)) :=
    congF_redStep (redStep c 7) 6 (by omega) (by omega) hl1 hw1
  have e3 : CongF (truncVal 6 (redStep (redStep c 7) 6))
      (truncVal 5 (redStep (redStep (redStep c 7) 6) 5)) :=
    congF_redStep (redStep (redStep c 7) 6) 5 (by omega) (by omega) hl2 hw2
  have e4 : CongF (truncVal 5 (redStep (redStep (redStep c 7) 6) 5))
      (truncVal 4 (redStep (redStep (redStep (redStep c 7) 6) 5) 4)) :=
    congF_redStep (redStep (redStep (redStep c 7) 6) 5) 4 (by omega) (by omega) hl3 hw3
  have echain : CongF (truncVal 8 c)
      (truncVal 4 (redStep (redStep (redStep (redStep c 7) 6) 5) 4)) :=
    congF_trans e1 (congF_trans e2 (congF_trans e3 e4))
  have htv8 : truncVal 8 c = wval c := by
    rw [truncVal, ← hc, List.take_length]
  have hfinlt : truncVal 4 (redStep (redStep (redStep (redStep c 7) 6) 5) 4) < 2 ^ 256 := by
    rw [truncVal]
    have h1 := wval_lt ((redStep (redStep (redStep (redStep c 7) 6) 5) 4).take 4)
      (fun w hw' => hw4 w (List.mem_of_mem_take hw'))
    rw [List.length_take, hl4] at h1
    simpa using h1
  refine ⟨by rw [reduce_eq]; exact hl4, by rw [reduce_eq]; exact hw4, ?_⟩
  rw [reduce_eq]
  have hpm : polyModF (wval c) =
      polyModF (truncVal 4 (redStep (redStep (redStep (redStep c 7) 6) 5) 4)) := by
    apply polyModF_congr
    rw [← htv8]
    exact echain
  rw [hpm, polyModF_of_lt hfinlt, truncVal]

attribute [irreducible] reduce

/-- unpack_encodeLE: unpack reads only the low four words and produces
exactly the 32-byte little-endian representation of their value. -/
theorem unpack_encodeLE (c : List Nat) (hc : 4 ≤ c.length) (hw : ∀ w ∈ c, w < 2 ^ 64) :
    unpack c = encodeLE (wval (c.take 4)) := by
  rw [unpack, encodeLE]
  apply List.map_congr_left
  intro i hi
  have hi32 : i < 32 := List.mem_range.mp hi
  have hq : i / 8 < 4 := by omega
  have htakew : ∀ w ∈ c.take 4, w < 2 ^ 64 := fun w hw' => hw w (List.mem_of_mem_take hw')
  have hgd : c.getD (i / 8) 0 = (c.take 4).getD (i / 8) 0 := by
    rw [List.getD_eq_getElem?_getD, List.getD_eq_getElem?_getD, List.getElem?_take]
    simp [hq]
  have hex : (c.take 4).getD (i / 8) 0 = wval (c.take 4) / 2 ^ (64 * (i / 8)) % 2 ^ 64 :=
    (wval_extract _ htakew (i / 8)).symm
  rw [hgd, hex, Nat.shiftRight_eq_div_pow]
  have hsplit : (2 : Nat) ^ 64 = 2 ^ (i % 8 * 8) * 2 ^ (64 - i % 8 * 8) := by
    rw [← Nat.pow_add]
    congr 1
    omega
  rw [hsplit, Nat.mod_mul_right_div_self, Nat.div_div_eq_div_mul, ← Nat.pow_add]
  rw [show 64 * (i / 8) + i % 8 * 8 = 8 * i by omega]
  apply Nat.mod_mod_of_dvd
  rw [show (256 : Nat) = 2 ^ 8 by rfl]
  exact Nat.pow_dvd_pow 2 (by omega)

attribute [irreducible] unpack

/-! ### The accumulator computes the carry-less product -/

/-- clmulBits x B0 n is the partial carry-less product using only the low n
bits of x. -/
def clmulBits (x B0 : Nat) : Nat → Nat
  | 0 => 0
  | k + 1 => clmulBits x B0 k ^^^ (if x.testBit k then B0 <<< k else 0)

theorem clmulBits_succ (x B0 k : Nat) :
    clmulBits x B0 (k + 1) = clmulBits x B0 k ^^^ (if x.testBit k then B0 <<< k else 0) := rfl

theorem clmulBits_zero_left (B0 : Nat) : ∀ n, clmulBits 0 B0 n = 0 := by
  intro n
  induction n with
  | zero => rfl
  | succ n ih => rw [clmulBits_succ, ih, Nat.zero_testBit]; simp

theorem clmulBits_succ_shift (x B0 : Nat) : ∀ n, clmulBits x B0 (n + 1) =
    (if x.testBit 0 then B0 else 0) ^^^ (clmulBits (x / 2) B0 n) <<< 1 := by
  intro n
  induction n with
  | zero =>
    rw [clmulBits_succ]
    show (0 : Nat) ^^^ _ = _
    rw [Nat.zero_xor, Nat.shiftLeft_zero]
    show _ = _ ^^^ (0 : Nat) <<< 1
    rw [Nat.zero_shiftLeft, Nat.xor_zero]
  | succ n ih =>
    rw [clmulBits_succ, ih]
    have hbit : x.testBit (n + 1) = (x / 2).testBit n := Nat.testBit_succ x n
    have hsh : B0 <<< (n + 1) = (B0 <<< n) <<< 1 := Nat.shiftLeft_add B0 n 1
    rw [hbit, hsh, clmulBits_succ, shiftLeft_xor_distrib, ite_shift]
    rw [Nat.xor_assoc]

theorem clmul_eq_clmulBits (B0 : Nat) : ∀ n x, x < 2 ^ n → clmul x B0 = clmulBits x B0 n := by
  intro n
  induction n with
  | zero =>
    intro x hx
    have hx0 : x = 0 := by omega
    subst hx0
    rfl
  | succ n ih =>
    intro x hx
    rw [clmulBits_succ_shift, clmul_eq]
    by_cases h0 : x = 0
    · subst h0
      rw [clmulBits_zero_left, Nat.zero_testBit]
      simp
    · simp only [h0, if_false]
      have hx2 : x / 2 < 2 ^ n := by
        have : x < 2 ^ n * 2 := by rw [← Nat.pow_succ]; exact hx
        omega
      rw [ih (x / 2) hx2]
      congr 1
      rcases Nat.mod_two_eq_zero_or_one x with h | h
      · have hb : x.testBit 0 = false := by rw [Nat.testBit_zero]; simp [h]
        simp [h, hb]
      · have hb : x.testBit 0 = true := by rw [Nat.testBit_zero]; simp [h]
        simp [h, hb]

theorem combAcc_split (a : List Nat) (B0 : Nat) : ∀ k,
    combAcc a B0 k =
      clmulBits (a.getD 0 0) B0 k ^^^ (clmulBits (a.getD 1 0) B0 k) <<< 64 ^^^
        (clmulBits (a.getD 2 0) B0 k) <<< 128 ^^^ (clmulBits (a.getD 3 0) B0 k) <<< 192 := by
  intro k
  induction k with
  | zero =>
    show (0 : Nat) = (0 : Nat) ^^^ (0 : Nat) <<< 64 ^^^ (0 : Nat) <<< 128 ^^^ (0 : Nat) <<< 192
    simp [Nat.zero_shiftLeft]
  | succ k ih =>
    show combAcc a B0 k ^^^ combK a B0 k = _
    rw [ih, combK, clmulBits_succ, clmulBits_succ, clmulBits_succ, clmulBits_succ]
    simp only [shiftLeft_xor_distrib, ite_shift, ← Nat.shiftLeft_add]
    simp [Nat.xor_assoc, Nat.xor_comm, xor_left_comm]

theorem combAcc_eq_clmul (a : List Nat) (B0 : Nat) (ha : a.length = 4)
    (haw : ∀ w ∈ a, w < 2 ^ 64) : combAcc a B0 64 = clmul (wval a) B0 := by
  match a, ha with
  | [a0, a1, a2, a3], _ =>
    have h0 : a0 < 2 ^ 64 := haw a0 (by simp)
    have h1 : a1 < 2 ^ 64 := haw a1 (by simp)
    have h2 : a2 < 2 ^ 64 := haw a2 (by simp)
    have h3 : a3 < 2 ^ 64 := haw a3 (by simp)
    have hwv : wval [a0, a1, a2, a3] =
        a0 ^^^ (a1 ^^^ (a2 ^^^ (a3 ^^^ 0 <<< 64) <<< 64) <<< 64) <<< 64 := rfl
    rw [hwv, combAcc_split]
    have hg0 : [a0, a1, a2, a3].getD 0 0 = a0 := rfl
    have hg1 : [a0, a1, a2, a3].getD 1 0 = a1 := rfl
    have hg2 : [a0, a1, a2, a3].getD 2 0 = a2 := rfl
    have hg3 : [a0, a1, a2, a3].getD 3 0 = a3 := rfl
    rw [hg0, hg1, hg2, hg3]
    rw [← clmul_eq_clmulBits B0 64 a0 h0, ← clmul_eq_clmulBits B0 64 a1 h1,
      ← clmul_eq_clmulBits B0 64 a2 h2, ← clmul_eq_clmulBits B0 64 a3 h3]
    simp only [clmul_xor_left, shiftLeft_clmul, zero_clmul, Nat.zero_shiftLeft,
      shiftLeft_xor_distrib, ← Nat.shiftLeft_add]
    simp [Nat.xor_assoc, Nat.xor_comm, xor_left_comm]

/-! ### Main correctness theorem for binaryFieldMul -/

/-- binaryFieldMul_some: on two 32-byte inputs the Go routine returns
exactly the 32-byte little-endian encoding of the product of the two field
elements modulo fPoly. -/
theorem binaryFieldMul_some (A B : List Nat) (hA32 : A.length = 32) (hB32 : B.length = 32)
    (hAb : ∀ x ∈ A, x < 256) (hBb : ∀ x ∈ B, x < 256) :
    binaryFieldMul A B = some (encodeLE (fieldMul (bval A) (bval B))) := by
  obtain ⟨hal, haw, hav⟩ := pack_spec A hAb hA32
  obtain ⟨hbl, hbw, hbv⟩ := pack_spec B hBb hB32
  have haw' : ∀ w ∈ pack A, w < 2 ^ 64 := by
    intro w hw
    obtain ⟨j, hj, rfl⟩ := List.mem_iff_getElem.mp hw
    rw [← List.getD_eq_getElem (pack A) 0 hj]
    exact haw j
  have hbl5 : (pack B ++ [0]).length = 5 := by
    rw [List.length_append, hbl]
    rfl
  have hbw5 : ∀ w ∈ pack B ++ [0], w < 2 ^ 64 := by
    intro w hw
    rcases List.mem_append.mp hw with h | h
    · obtain ⟨j, hj, rfl⟩ := List.mem_iff_getElem.mp h
      rw [← List.getD_eq_getElem (pack B) 0 hj]
      exact hbw j
    · have : w = 0 := by simpa using h
      subst this
      exact Nat.two_pow_pos 64
  have hbv5 : wval (pack B ++ [0]) = bval B := by
    rw [wval_append_single, Nat.zero_shiftLeft, Nat.xor_zero, hbv]
  have hbvlt : wval (pack B ++ [0]) < 2 ^ 256 := by
    rw [hbv5]
    have := bval_lt B hBb
    rw [hB32] at this
    simpa using this
  obtain ⟨hc8, hcw, _, _, _, hcacc⟩ :=
    combState_spec (pack A) (pack B ++ [0]) hbl5 hbw5 hbvlt 64 (by omega)
  have hclv : combLoop (pack A) (pack B ++ [0]) = combState (pack A) (pack B ++ [0]) 64 := rfl
  have hcval : wval (combLoop (pack A) (pack B ++ [0])).1 = clmul (bval A) (bval B) := by
    rw [hclv, hcacc, combAcc_eq_clmul (pack A) _ hal haw', hav, hbv5]
  obtain ⟨hrl, hrw, hrv⟩ :=
    reduce_spec (combLoop (pack A) (pack B ++ [0])).1 (by rw [hclv]; exact hc8)
      (by rw [hclv]; exact hcw)
  have hguard : ¬(A.length < 32 ∨ B.length < 32) := by omega
  rw [binaryFieldMul, if_neg hguard]
  rw [unpack_encodeLE _ (by rw [hrl]; omega) hrw, hrv, hcval]
  rfl

/-! ### Derived facts used by several claims -/

theorem mem_lt_of_getD_lt {l : List Nat} {B : Nat} (h : ∀ j, l.getD j 0 < B) :
    ∀ w ∈ l, w < B := by
  intro w hw
  obtain ⟨j, hj, rfl⟩ := List.mem_iff_getElem.mp hw
  rw [← List.getD_eq_getElem l 0 hj]
  exact h j

theorem fieldMul_comm (x y : Nat) : fieldMul x y = fieldMul y x := by
  rw [fieldMul, fieldMul, clmul_comm]

theorem fieldMul_xor_right (x y z : Nat) :
    fieldMul x (y ^^^ z) = fieldMul x y ^^^ fieldMul x z := by
  rw [fieldMul, fieldMul, fieldMul, clmul_xor_right, polyModF_xor]

/-- binaryFieldMul_none: an input shorter than 32 bytes makes the Go code
panic on an out-of-range index (modelled as `none`); no InvalidInputLength
error value exists anywhere in the code. -/
theorem binaryFieldMul_none (A B : List Nat) (h : A.length < 32 ∨ B.length < 32) :
    binaryFieldMul A B = none := by
  rw [binaryFieldMul, if_pos h]

/-- binaryFieldMul_take: inputs longer than 32 bytes are silently truncated
to their first 32 bytes — the packing loop never reads past index 31. -/
theorem binaryFieldMul_take (A B : List Nat) (hA : 32 ≤ A.length) (hB : 32 ≤ B.length) :
    binaryFieldMul A B = binaryFieldMul (A.take 32) (B.take 32) := by
  have hA' : (A.take 32).length = 32 := by rw [List.length_take]; omega
  have hB' : (B.take 32).length = 32 := by rw [List.length_take]; omega
  have hpa : pack A = pack (A.take 32) := by
    apply pack_congr
    intro i hi
    rw [List.getD_eq_getElem?_getD, List.getD_eq_getElem?_getD, List.getElem?_take,
      if_pos hi]
  have hpb : pack B = pack (B.take 32) := by
    apply pack_congr
    intro i hi
    rw [List.getD_eq_getElem?_getD, List.getD_eq_getElem?_getD, List.getElem?_take,
      if_pos hi]
  rw [binaryFieldMul, binaryFieldMul, if_neg (by omega), if_neg (by omega), hpa, hpb]

attribute [irreducible] binaryFieldMul

/-! ### Claim theorems -/

/-- C1: for every pair of 32-byte inputs A and B, binaryFieldMul(A, B)
returns the 32-byte little-endian representation of the product of the two
degree-at-most-255 polynomials over GF(2) encoded by A and B, reduced
modulo the irreducible polynomial f(X) = X^256 + X^10 + X^5 + X^2 + 1. -/
theorem claim_C1 (A B : List Nat) (hA32 : A.length = 32) (hB32 : B.length = 32)
    (hAb : ∀ x ∈ A, x < 256) (hBb : ∀ x ∈ B, x < 256) :
    binaryFieldMul A B = some (encodeLE (fieldMul (bval A) (bval B))) :=
  binaryFieldMul_some A B hA32 hB32 hAb hBb

theorem claim_C1_witness :
    (3 :: List.replicate 31 0).length = 32 ∧ (5 :: List.replicate 31 0).length = 32 ∧
      (∀ x ∈ 3 :: List.replicate 31 0, x < 256) ∧ (∀ x ∈ 5 :: List.replicate 31 0, x < 256) ∧
      binaryFieldMul (3 :: List.replicate 31 0) (5 :: List.replicate 31 0) =
        some (encodeLE (fieldMul (bval (3 :: List.replicate 31 0))
          (bval (5 :: List.replicate 31 0)))) :=
  ⟨by decide, by decide, by decide, by decide,
    claim_C1 (3 :: List.replicate 31 0) (5 :: List.replicate 31 0) (by decide) (by decide)
      (by decide) (by decide)⟩

/-- C3: the reduction loop (i from 7 down to 4, folding c[i] into c[i-4]
and c[i-3] with left shifts 10/5/2/0 and right shifts 54/59/62, as encoded
in redStep/reduce) leaves in words c[0..3] the canonical remainder modulo
f(X) = X^256 + X^10 + X^5 + X^2 + 1 of the 512-bit input value: a single
pass fully reduces, no further reduction is needed. -/
theorem claim_C3 (c : List Nat) (hc : c.length = 8) (hw : ∀ w ∈ c, w < 2 ^ 64) :
    wval ((reduce c).take 4) = polyModF (wval c) :=
  (reduce_spec c hc hw).2.2

theorem claim_C3_witness :
    ([1, 2, 3, 4, 5, 6, 7, 8] : List Nat).length = 8 ∧
      (∀ w ∈ ([1, 2, 3, 4, 5, 6, 7, 8] : List Nat), w < 2 ^ 64) ∧
      wval ((reduce [1, 2, 3, 4, 5, 6, 7, 8]).take 4) =
        polyModF (wval [1, 2, 3, 4, 5, 6, 7, 8]) :=
  ⟨by decide, by decide, claim_C3 [1, 2, 3, 4, 5, 6, 7, 8] (by decide) (by decide)⟩

/-- C4: the branch-free mask mask = -(a[j] >> k & 1), computed in uint64
wraparound arithmetic (combMask), equals the all-ones word 2^64 - 1 when
bit k of word j of packed A is 1 and equals 0 when that bit is 0, for every
32-byte input A, every k < 64 and every j < 4. -/
theorem claim_C4 (A : List Nat) (hA32 : A.length = 32) (hAb : ∀ x ∈ A, x < 256)
    (k j : Nat) (hk : k < 64) (hj : j < 4) :
    combMask ((pack A).getD j 0) k =
      if ((pack A).getD j 0).testBit k then 2 ^ 64 - 1 else 0 :=
  combMask_spec ((pack A).getD j 0) k

theorem claim_C4_witness :
    (List.replicate 32 255).length = 32 ∧ (∀ x ∈ List.replicate 32 255, x < 256) ∧
      (63 : Nat) < 64 ∧ (3 : Nat) < 4 ∧
      combMask ((pack (List.replicate 32 255)).getD 3 0) 63 =
        if ((pack (List.replicate 32 255)).getD 3 0).testBit 63 then 2 ^ 64 - 1 else 0 :=
  ⟨by decide, by decide, by decide, by decide,
    claim_C4 (List.replicate 32 255) (by decide) (by decide) 63 3 (by decide) (by decide)⟩

/-- C5: multiplication is commutative: binaryFieldMul(A, B) =
binaryFieldMul(B, A) for all 32-byte inputs, despite the asymmetric roles
of the bit-scanned operand A and the shifted operand B. -/
theorem claim_C5 (A B : List Nat) (hA32 : A.length = 32) (hB32 : B.length = 32)
    (hAb : ∀ x ∈ A, x < 256) (hBb : ∀ x ∈ B, x < 256) :
    binaryFieldMul A B = binaryFieldMul B A := by
  rw [binaryFieldMul_some A B hA32 hB32 hAb hBb, binaryFieldMul_some B A hB32 hA32 hBb hAb,
    fieldMul_comm]

theorem claim_C5_witness :
    (3 :: List.replicate 31 0).length = 32 ∧ (7 :: List.replicate 31 0).length = 32 ∧
      (∀ x ∈ 3 :: List.replicate 31 0, x < 256) ∧ (∀ x ∈ 7 :: List.replicate 31 0, x < 256) ∧
      binaryFieldMul (3 :: List.replicate 31 0) (7 :: List.replicate 31 0) =
        binaryFieldMul (7 :: List.replicate 31 0) (3 :: List.replicate 31 0) :=
  ⟨by decide, by decide, by decide, by decide,
    claim_C5 (3 :: List.replicate 31 0) (7 :: List.replicate 31 0) (by decide) (by decide)
      (by decide) (by decide)⟩

/-- C6: multiplication distributes over byte-wise XOR: for 32-byte A, B, C,
binaryFieldMul(A, B XOR C) = binaryFieldMul(A, B) XOR binaryFieldMul(A, C),
with XOR taken byte-wise on the buffers. -/
theorem claim_C6 (A B C : List Nat) (hA32 : A.length = 32) (hB32 : B.length = 32)
    (hC32 : C.length = 32) (hAb : ∀ x ∈ A, x < 256) (hBb : ∀ x ∈ B, x < 256)
    (hCb : ∀ x ∈ C, x < 256) :
    ∃ P Q R, binaryFieldMul A B = some P ∧ binaryFieldMul A C = some Q ∧
      binaryFieldMul A (List.zipWith (fun a b => a ^^^ b) B C) = some R ∧
      R = List.zipWith (fun a b => a ^^^ b) P Q := by
  have hZ32 : (List.zipWith (fun a b => a ^^^ b) B C).length = 32 := by
    simp [List.length_zipWith, hB32, hC32]
  have hZb : ∀ x ∈ List.zipWith (fun a b => a ^^^ b) B C, x < 256 := by
    intro x hx
    obtain ⟨j, hj, rfl⟩ := List.mem_iff_getElem.mp hx
    rw [List.getElem_zipWith]
    have h256 : (256 : Nat) = 2 ^ 8 := by norm_num
    rw [h256]
    exact Nat.xor_lt_two_pow (h256 ▸ hBb _ (List.getElem_mem _))
      (h256 ▸ hCb _ (List.getElem_mem _))
  refine ⟨encodeLE (fieldMul (bval A) (bval B)), encodeLE (fieldMul (bval A) (bval C)), _,
    binaryFieldMul_some A B hA32 hB32 hAb hBb,
    binaryFieldMul_some A C hA32 hC32 hAb hCb,
    binaryFieldMul_some A _ hA32 hZ32 hAb hZb, ?_⟩
  have hbz : bval (List.zipWith (fun a b => a ^^^ b) B C) = bval B ^^^ bval C := by
    rw [← bvalX_eq_bval _ hZb, bvalX_zipWith_xor B C (by rw [hB32, hC32]),
      bvalX_eq_bval B hBb, bvalX_eq_bval C hCb]
  rw [hbz, fieldMul_xor_right, encodeLE_xor]

theorem claim_C6_witness :
    (2 :: List.replicate 31 0).length = 32 ∧ (5 :: List.replicate 31 0).length = 32 ∧
      (9 :: List.replicate 31 0).length = 32 ∧
      (∀ x ∈ 2 :: List.replicate 31 0, x < 256) ∧ (∀ x ∈ 5 :: List.replicate 31 0, x < 256) ∧
      (∀ x ∈ 9 :: List.replicate 31 0, x < 256) ∧
      (∃ P Q R, binaryFieldMul (2 :: List.replicate 31 0) (5 :: List.replicate 31 0) = some P ∧
        binaryFieldMul (2 :: List.replicate 31 0) (9 :: List.replicate 31 0) = some Q ∧
        binaryFieldMul (2 :: List.replicate 31 0)
          (List.zipWith (fun a b => a ^^^ b) (5 :: List.replicate 31 0)
            (9 :: List.replicate 31 0)) = some R ∧
        R = List.zipWith (fun a b => a ^^^ b) P Q) :=
  ⟨by decide, by decide, by decide, by decide, by decide, by decide,
    claim_C6 (2 :: List.replicate 31 0) (5 :: List.replicate 31 0) (9 :: List.replicate 31 0)
      (by decide) (by decide) (by decide) (by decide) (by decide) (by decide)⟩

/-- C7: packing a 32-byte buffer into 4 little-endian 64-bit words and
unpacking back is the identity: unpack(pack(x)) = x for every 32-byte x. -/
theorem claim_C7 (x : List Nat) (hx : x.length = 32) (hb : ∀ v ∈ x, v < 256) :
    unpack (pack x) = x := by
  obtain ⟨hal, haw, hav⟩ := pack_spec x hb hx
  rw [unpack_encodeLE (pack x) (by omega) (mem_lt_of_getD_lt haw)]
  have ht : (pack x).take 4 = pack x := List.take_of_length_le (by omega)
  rw [ht, hav, encodeLE_bval x hx hb]

theorem claim_C7_witness :
    (List.replicate 32 42).length = 32 ∧ (∀ v ∈ List.replicate 32 42, v < 256) ∧
      unpack (pack (List.replicate 32 42)) = List.replicate 32 42 :=
  ⟨by decide, by decide, claim_C7 (List.replicate 32 42) (by decide) (by decide)⟩

/-- C2 (amended): the code performs no input-length validation and reports
no error value. An input shorter than 32 bytes makes the indexing
A[(i/8)*8 .. ] in the packing loop panic (modelled as `none`); inputs of 32
bytes or more are silently truncated to their first 32 bytes, because the
packing loop reads only indices 0..31. No InvalidInputLength error exists
anywhere in the code. -/
theorem claim_C2 (A B : List Nat) :
    (A.length < 32 ∨ B.length < 32 → binaryFieldMul A B = none) ∧
      (32 ≤ A.length → 32 ≤ B.length →
        binaryFieldMul A B = binaryFieldMul (A.take 32) (B.take 32)) :=
  ⟨binaryFieldMul_none A B, binaryFieldMul_take A B⟩

theorem claim_C2_witness :
    binaryFieldMul (List.replicate 31 1) (List.replicate 32 2) = none ∧
      binaryFieldMul (List.replicate 33 7) (List.replicate 32 9) =
        binaryFieldMul ((List.replicate 33 7).take 32) ((List.replicate 32 9).take 32) :=
  ⟨(claim_C2 (List.replicate 31 1) (List.replicate 32 2)).1 (by decide),
    (claim_C2 (List.replicate 33 7) (List.replicate 32 9)).2 (by decide) (by decide)⟩

theorem claim_C2_counterexample :
    (List.replicate 33 7 : List Nat).length ≠ 32 ∧
      binaryFieldMul (List.replicate 33 7) (List.replicate 32 9) =
        binaryFieldMul (List.replicate 32 7) (List.replicate 32 9) ∧
      (binaryFieldMul (List.replicate 33 7) (List.replicate 32 9)).isSome = true := by
  have h1 : (List.replicate 33 7 : List Nat).take 32 = List.replicate 32 7 := by decide
  have h2 : (List.replicate 32 9 : List Nat).take 32 = List.replicate 32 9 := by decide
  have htr : binaryFieldMul (List.replicate 33 7) (List.replicate 32 9) =
      binaryFieldMul (List.replicate 32 7) (List.replicate 32 9) := by
    rw [binaryFieldMul_take _ _ (by decide) (by decide), h1, h2]
  refine ⟨by decide, htr, ?_⟩
  rw [htr, binaryFieldMul_some _ _ (by decide) (by decide) (by decide) (by decide)]
  rfl


/-! ### Frobenius squaring chain -/

/-- sqF is field squaring: one step of the driver's self-multiplication. -/
def sqF (u : Nat) : Nat := fieldMul u u

/-- sqIterN n u applies field squaring n times to u. -/
def sqIterN : Nat → Nat → Nat
  | 0, u => u
  | n + 1, u => sqIterN n (sqF u)

/-- fold256 folds the part of y above bit 256 back through rPoly once. -/
def fold256 (y : Nat) : Nat :=
  y % 2 ^ 256 ^^^ (y >>> 256 <<< 10 ^^^ (y >>> 256 <<< 5 ^^^ (y >>> 256 <<< 2 ^^^ y >>> 256)))

/-- fastRed is a two-fold reduction, equal to polyModF below 2^512; it is
only an efficient evaluator used to settle the 256-step squaring chain. -/
def fastRed (y : Nat) : Nat := fold256 (fold256 y)

def sqFast (u : Nat) : Nat := fastRed (clmul u u)

def sqFastIter : Nat → Nat → Nat
  | 0, u => u
  | n + 1, u => sqFastIter n (sqFast u)

theorem clmul_rPoly_expand (h : Nat) :
    clmul rPoly h = h <<< 10 ^^^ (h <<< 5 ^^^ (h <<< 2 ^^^ h)) := by
  have hr : rPoly = 2 ^ 10 ^^^ (2 ^ 5 ^^^ (2 ^ 2 ^^^ 2 ^ 0)) := by decide
  rw [hr, clmul_xor_left, clmul_xor_left, clmul_xor_left, clmul_two_pow, clmul_two_pow,
    clmul_two_pow, clmul_two_pow, Nat.shiftLeft_zero]

theorem mod_xor_shift (y : Nat) : y % 2 ^ 256 ^^^ y >>> 256 <<< 256 = y := by
  rw [xor_disjoint_add 256 _ _ (Nat.mod_lt _ (by norm_num)), Nat.shiftLeft_eq,
    Nat.shiftRight_eq_div_pow]
  exact Nat.mod_add_div' y (2 ^ 256)

theorem congF_fold (lo hi : Nat) : CongF (lo ^^^ clmul rPoly hi) (lo ^^^ hi <<< 256) := by
  refine ⟨hi, ?_⟩
  rw [clmul_fPoly_split, clmul_comm rPoly hi]
  simp [Nat.xor_assoc, Nat.xor_comm, xor_left_comm, Nat.xor_self, Nat.xor_zero, Nat.zero_xor]
  rw [← Nat.xor_assoc, Nat.xor_self, Nat.zero_xor]

theorem fold256_congF (y : Nat) : CongF (fold256 y) y := by
  have h := congF_fold (y % 2 ^ 256) (y >>> 256)
  rw [mod_xor_shift y] at h
  rw [fold256, ← clmul_rPoly_expand]
  exact h

theorem shiftLeft_lt_pow {a m : Nat} (s : Nat) (ha : a < 2 ^ m) : a <<< s < 2 ^ (m + s) := by
  rw [Nat.shiftLeft_eq, Nat.pow_add]
  exact Nat.mul_lt_mul_of_lt_of_le ha (le_refl _) (Nat.two_pow_pos s)

theorem fold256_lt1 {y : Nat} (hy : y < 2 ^ 512) : fold256 y < 2 ^ 266 := by
  have hhi : y >>> 256 < 2 ^ 256 := by
    rw [Nat.shiftRight_eq_div_pow]
    apply Nat.div_lt_of_lt_mul
    rw [← Nat.pow_add, show (256 + 256 : Nat) = 512 by norm_num]
    exact hy
  have hweak : ∀ a m : Nat, m ≤ 266 → a < 2 ^ m → a < 2 ^ 266 := fun a m hm ha =>
    lt_of_lt_of_le ha (Nat.pow_le_pow_right (by norm_num) hm)
  have h10 := hweak _ _ (by norm_num) (shiftLeft_lt_pow 10 hhi)
  have h5 := hweak _ _ (by norm_num) (shiftLeft_lt_pow 5 hhi)
  have h2 := hweak _ _ (by norm_num) (shiftLeft_lt_pow 2 hhi)
  have h0 := hweak _ _ (by norm_num) hhi
  have hmod := hweak (y % 2 ^ 256) 256 (by norm_num) (Nat.mod_lt _ (by norm_num))
  rw [fold256]
  exact Nat.xor_lt_two_pow hmod
    (Nat.xor_lt_two_pow h10 (Nat.xor_lt_two_pow h5 (Nat.xor_lt_two_pow h2 h0)))

theorem fold256_lt2 {z : Nat} (hz : z < 2 ^ 266) : fold256 z < 2 ^ 256 := by
  have hhi : z >>> 256 < 2 ^ 10 := by
    rw [Nat.shiftRight_eq_div_pow]
    apply Nat.div_lt_of_lt_mul
    rw [← Nat.pow_add, show (256 + 10 : Nat) = 266 by norm_num]
    exact hz
  have hweak : ∀ a m : Nat, m ≤ 256 → a < 2 ^ m → a < 2 ^ 256 := fun a m hm ha =>
    lt_of_lt_of_le ha (Nat.pow_le_pow_right (by norm_num) hm)
  have h10 := hweak _ _ (by norm_num) (shiftLeft_lt_pow 10 hhi)
  have h5 := hweak _ _ (by norm_num) (shiftLeft_lt_pow 5 hhi)
  have h2 := hweak _ _ (by norm_num) (shiftLeft_lt_pow 2 hhi)
  have h0 := hweak _ _ (by norm_num) hhi
  have hmod : z % 2 ^ 256 < 2 ^ 256 := Nat.mod_lt _ (by norm_num)
  rw [fold256]
  exact Nat.xor_lt_two_pow hmod
    (Nat.xor_lt_two_pow h10 (Nat.xor_lt_two_pow h5 (Nat.xor_lt_two_pow h2 h0)))

theorem fastRed_eq_polyModF (y : Nat) (hy : y < 2 ^ 512) : fastRed y = polyModF y := by
  have h1 : polyModF y = polyModF (fold256 y) := polyModF_congr (congF_symm (fold256_congF y))
  have h2 : polyModF (fold256 y) = polyModF (fold256 (fold256 y)) :=
    polyModF_congr (congF_symm (fold256_congF (fold256 y)))
  rw [fastRed, h1, h2, polyModF_of_lt (fold256_lt2 (fold256_lt1 hy))]

theorem sqF_lt (u : Nat) : sqF u < 2 ^ 256 := polyModF_lt _

theorem sqFast_eq {u : Nat} (h : u < 2 ^ 256) : sqFast u = sqF u := by
  rw [sqFast, sqF, fieldMul]
  apply fastRed_eq_polyModF
  have h2 := clmul_lt h 256 u h
  rw [show (256 + 256 : Nat) = 512 by norm_num] at h2
  exact h2

theorem sqFastIter_eq : ∀ (n u : Nat), u < 2 ^ 256 → sqFastIter n u = sqIterN n u := by
  intro n
  induction n with
  | zero => intro u _; rfl
  | succ n ih =>
    intro u hu
    show sqFastIter n (sqFast u) = sqIterN n (sqF u)
    rw [sqFast_eq hu]
    exact ih (sqF u) (sqF_lt u)

theorem sqIterN_add : ∀ (m n u : Nat), sqIterN (m + n) u = sqIterN n (sqIterN m u) := by
  intro m
  induction m with
  | zero => intro n u; rw [Nat.zero_add]; rfl
  | succ m ih =>
    intro n u
    rw [show m + 1 + n = (m + n) + 1 by omega]
    show sqIterN (m + n) (sqF u) = sqIterN n (sqIterN m (sqF u))
    exact ih n (sqF u)

theorem sqF_zero : sqF 0 = 0 := by
  rw [sqF, fieldMul, zero_clmul]
  exact polyModF_of_lt (by norm_num)

theorem sqIterN_zero : ∀ n, sqIterN n 0 = 0 := by
  intro n
  induction n with
  | zero => rfl
  | succ n ih =>
    show sqIterN n (sqF 0) = 0
    rw [sqF_zero]
    exact ih

theorem sqF_one : sqF 1 = 1 := by
  rw [sqF, fieldMul, one_clmul]
  exact polyModF_of_lt (by norm_num)

theorem sqIterN_one : ∀ n, sqIterN n 1 = 1 := by
  intro n
  induction n with
  | zero => rfl
  | succ n ih =>
    show sqIterN n (sqF 1) = 1
    rw [sqF_one]
    exact ih

theorem congF_clmul_left {a b : Nat} (c : Nat) (h : CongF a b) : CongF (clmul a c) (clmul b c) := by
  obtain ⟨q, hq⟩ := h
  refine ⟨clmul q c, ?_⟩
  rw [← clmul_xor_left, hq, clmul_assoc, clmul_comm fPoly c, ← clmul_assoc]

theorem polyModF_clmul_left (a c : Nat) : polyModF (clmul (polyModF a) c) = polyModF (clmul a c) :=
  polyModF_congr (congF_clmul_left c (polyModF_congF a))

theorem polyModF_clmul_right (a c : Nat) : polyModF (clmul c (polyModF a)) = polyModF (clmul c a) := by
  rw [clmul_comm c, clmul_comm c]
  exact polyModF_clmul_left a c

theorem sqF_fieldMul (u v : Nat) : sqF (fieldMul u v) = fieldMul (sqF u) (sqF v) := by
  simp only [sqF, fieldMul]
  rw [polyModF_clmul_left, polyModF_clmul_right, polyModF_clmul_left, polyModF_clmul_right]
  have hj : clmul (clmul u v) (clmul u v) = clmul (clmul u u) (clmul v v) := by
    rw [clmul_assoc, clmul_comm v (clmul u v), clmul_assoc, ← clmul_assoc]
  rw [hj]

theorem sqIterN_mul : ∀ (n u v : Nat),
    sqIterN n (fieldMul u v) = fieldMul (sqIterN n u) (sqIterN n v) := by
  intro n
  induction n with
  | zero => intro u v; rfl
  | succ n ih =>
    intro u v
    show sqIterN n (sqF (fieldMul u v)) = _
    rw [sqF_fieldMul]
    exact ih _ _

theorem clmul_self_xor (x y : Nat) :
    clmul (x ^^^ y) (x ^^^ y) = clmul x x ^^^ clmul y y := by
  rw [clmul_xor_left, clmul_xor_right, clmul_xor_right, clmul_comm y x]
  rw [Nat.xor_assoc, ← Nat.xor_assoc (clmul x y) (clmul x y), Nat.xor_self, Nat.zero_xor]

theorem sqF_xor (x y : Nat) : sqF (x ^^^ y) = sqF x ^^^ sqF y := by
  rw [sqF, sqF, sqF, fieldMul, fieldMul, fieldMul, clmul_self_xor, polyModF_xor]

theorem sqIterN_xor : ∀ (n x y : Nat), sqIterN n (x ^^^ y) = sqIterN n x ^^^ sqIterN n y := by
  intro n
  induction n with
  | zero => intro x y; rfl
  | succ n ih =>
    intro x y
    show sqIterN n (sqF (x ^^^ y)) = _
    rw [sqF_xor]
    exact ih _ _

theorem clmul_two (y : Nat) : clmul 2 y = y <<< 1 := by
  rw [clmul_eq]
  norm_num [one_clmul]

theorem fieldMul_two_pow (i : Nat) (h : i < 255) : fieldMul 2 (2 ^ i) = 2 ^ (i + 1) := by
  rw [fieldMul, clmul_two, Nat.shiftLeft_eq, pow_one, ← pow_succ]
  exact polyModF_of_lt (Nat.pow_lt_pow_right (by norm_num) (by omega))

theorem sub_top_bit (u : Nat) (hu : u ≠ 0) : u ^^^ 2 ^ lg u = u - 2 ^ lg u := by
  obtain ⟨h1, h2⟩ := lg_spec u hu
  have hr : u - 2 ^ lg u < 2 ^ lg u := by
    rw [pow_succ] at h2
    omega
  have hx : (u - 2 ^ lg u) ^^^ 1 <<< lg u = (u - 2 ^ lg u) + 1 <<< lg u :=
    xor_disjoint_add (lg u) _ 1 hr
  rw [Nat.shiftLeft_eq, Nat.one_mul] at hx
  have hu' : u - 2 ^ lg u + 2 ^ lg u = u := by omega
  rw [hu'] at hx
  have h3 := congrArg (fun t => t ^^^ 2 ^ lg u) hx
  simp only [] at h3
  rw [Nat.xor_assoc, Nat.xor_self, Nat.xor_zero] at h3
  exact h3.symm

theorem sqChainA : sqFastIter 64 2 = 74702952569013974945600428131549694723201103851077959956257961092710703508865 := by decide

theorem sqChainB : sqFastIter 64 74702952569013974945600428131549694723201103851077959956257961092710703508865 = 15436663609851049224864496286451380189256295864868809571642708990398143895651 := by decide

theorem sqChainC : sqFastIter 64 15436663609851049224864496286451380189256295864868809571642708990398143895651 = 17107320150610298964664598014772159929914427336337430513285235593097194165877 := by decide

theorem sqChainD : sqFastIter 64 17107320150610298964664598014772159929914427336337430513285235593097194165877 = 2 := by decide

theorem sqIterN_256_two : sqIterN 256 2 = 2 := by
  have c1 : sqIterN 64 2 = 74702952569013974945600428131549694723201103851077959956257961092710703508865 := (sqFastIter_eq 64 2 (by norm_num)).symm.trans sqChainA
  have c2 : sqIterN 64 74702952569013974945600428131549694723201103851077959956257961092710703508865 = 15436663609851049224864496286451380189256295864868809571642708990398143895651 :=
    (sqFastIter_eq 64 _ (by norm_num)).symm.trans sqChainB
  have c3 : sqIterN 64 15436663609851049224864496286451380189256295864868809571642708990398143895651 = 17107320150610298964664598014772159929914427336337430513285235593097194165877 :=
    (sqFastIter_eq 64 _ (by norm_num)).symm.trans sqChainC
  have c4 : sqIterN 64 17107320150610298964664598014772159929914427336337430513285235593097194165877 = 2 :=
    (sqFastIter_eq 64 _ (by norm_num)).symm.trans sqChainD
  rw [show (256 : Nat) = 64 + 64 + 64 + 64 by norm_num, sqIterN_add, sqIterN_add, sqIterN_add,
    c1, c2, c3, c4]

theorem sqIterN_pow : ∀ i, i ≤ 255 → sqIterN 256 (2 ^ i) = 2 ^ i := by
  intro i
  induction i with
  | zero =>
    intro _
    rw [pow_zero]
    exact sqIterN_one 256
  | succ i ih =>
    intro h
    rw [← fieldMul_two_pow i (by omega), sqIterN_mul, sqIterN_256_two, ih (by omega)]

theorem sqIterN_256_id (u : Nat) : u < 2 ^ 256 → sqIterN 256 u = u := by
  induction u using Nat.strong_induction_on with
  | _ u ih =>
    intro hu
    by_cases h0 : u = 0
    · rw [h0]
      exact sqIterN_zero 256
    · obtain ⟨h1, h2⟩ := lg_spec u h0
      have hlg : lg u ≤ 255 := by
        by_contra hc
        push_neg at hc
        have hge : 2 ^ 256 ≤ 2 ^ lg u := Nat.pow_le_pow_right (by norm_num) (by omega)
        omega
      have hreq : u ^^^ 2 ^ lg u = u - 2 ^ lg u := sub_top_bit u h0
      have hinv : 2 ^ lg u ^^^ (u ^^^ 2 ^ lg u) = u := by
        rw [Nat.xor_comm u (2 ^ lg u), ← Nat.xor_assoc, Nat.xor_self, Nat.zero_xor]
      have hu2 : u = 2 ^ lg u ^^^ (u - 2 ^ lg u) := by
        rw [← hreq]
        exact hinv.symm
      have hpos : 0 < 2 ^ lg u := Nat.two_pow_pos _
      have hlt2 : u - 2 ^ lg u < u := by omega
      have hlt256 : u - 2 ^ lg u < 2 ^ 256 := by omega
      calc sqIterN 256 u = sqIterN 256 (2 ^ lg u ^^^ (u - 2 ^ lg u)) := by rw [← hu2]
        _ = sqIterN 256 (2 ^ lg u) ^^^ sqIterN 256 (u - 2 ^ lg u) := sqIterN_xor 256 _ _
        _ = 2 ^ lg u ^^^ (u - 2 ^ lg u) := by
            rw [sqIterN_pow (lg u) hlg, ih _ hlt2 hlt256]
        _ = u := hu2.symm

theorem selfMulIter_eq : ∀ (n : Nat) (x : List Nat), x.length = 32 → (∀ v ∈ x, v < 256) →
    selfMulIter n x = encodeLE (sqIterN n (bval x)) := by
  intro n
  induction n with
  | zero =>
    intro x hx hb
    exact (encodeLE_bval x hx hb).symm
  | succ n ih =>
    intro x hx hb
    have hmul := binaryFieldMul_some x x hx hx hb hb
    show selfMulIter n ((binaryFieldMul x x).getD []) = _
    rw [hmul, Option.getD_some,
      ih (encodeLE (fieldMul (bval x) (bval x))) (encodeLE_length _) (encodeLE_mem_lt _),
      bval_encodeLE (fieldMul (bval x) (bval x)) (by exact polyModF_lt _)]
    rfl

/-- C10: iterating x := binaryFieldMul(x, x) exactly 256 times returns the
original 32-byte value: the Frobenius map u -> u^2 has order dividing 256
in GF(2^256), equivalently u^(2^256) = u for every field element. -/
theorem claim_C10 (x : List Nat) (hx : x.length = 32) (hb : ∀ v ∈ x, v < 256) :
    selfMulIter 256 x = x := by
  have hv : bval x < 2 ^ 256 := by
    have h := bval_lt x hb
    rw [hx, show (8 * 32 : Nat) = 256 by norm_num] at h
    exact h
  rw [selfMulIter_eq 256 x hx hb, sqIterN_256_id (bval x) hv, encodeLE_bval x hx hb]

theorem claim_C10_witness :
    (List.replicate 32 1).length = 32 ∧ (∀ v ∈ List.replicate 32 1, v < 256) ∧
      selfMulIter 256 (List.replicate 32 1) = List.replicate 32 1 :=
  ⟨by decide, by decide, claim_C10 (List.replicate 32 1) (by decide) (by decide)⟩

end BFM
